import Mathlib

/-!
# GraphingCalc: the expression evaluator and the plotting loop of `calcCalc.c`

A shallow embedding of `src/calcCalc.c`.

* C strings are `List Char` (the bytes before the terminating NUL, taken to
  be ASCII); a pointer into a buffer is an offset into the list.  The
  two 32-byte `snprintf` targets truncate, and that truncation is modelled.
  `evaluate_expression` takes the other fixed-size arrays (`temp_expr[512]`,
  `arg_str[256]`, `values[256]`, `operators[256]`) to be large enough for
  what they receive; `evaluate_expression_bounded` is the same function with
  their sizes, a write past the end of one being an outcome of its own.
* A `double` is a value of `Dbl`.  What the C library and the FPU compute
  (rounding, `+ - * /`, `pow`, the `<math.h>` functions, the `(int)` cast) is
  not part of the repository and is a parameter, `Platform`.  The lexical
  side of `strtod` and of `printf("%f")` in the "C" locale is modelled
  concretely.  Two platforms are given: `refPlatform`, exact on the
  rationals, and `binary64`, IEEE 754 double precision for the conversion of
  a literal and for `+ - * /`.
* Undefined behaviour the code can reach (a read of a never-written array
  slot, `strchr` on a null pointer, a write past the end of an array) is an
  explicit `Outcome`.
* The recursion of `evaluate_expression` on an argument text and the loop over
  the occurrences of a function name carry a bound; the bounds are never
  reached (`evaluate_expression_ne_outOfFuel`,
  `evaluate_expression_bounded_ne_outOfFuel`).
-/

namespace GraphingCalc

/-! ## Doubles -/

/-- A C `double`: NaN (one value, the sign and payload of a NaN are not
tracked), the two infinities, negative zero, and the finite values, `fin 0`
being positive zero. -/
inductive Dbl where
  | nan
  | pinf
  | ninf
  | negZero
  | fin (q : ℚ)
  deriving DecidableEq

namespace Dbl

/-- Unary minus on a double: flips the sign, exactly. -/
def neg : Dbl → Dbl
  | nan => nan
  | pinf => ninf
  | ninf => pinf
  | negZero => fin 0
  | fin q => if q = 0 then negZero else fin (-q)

/-- The C test `d != 0`: false exactly for the two zeros (true for NaN). -/
def neZero : Dbl → Bool
  | negZero => false
  | fin q => decide (q ≠ 0)
  | _ => true

/-- The C `isnan`. -/
def isNaN : Dbl → Bool
  | nan => true
  | _ => false

/-- The C `isinf`. -/
def isInf : Dbl → Bool
  | pinf => true
  | ninf => true
  | _ => false

/-- The C comparison `a <= b` on doubles (false when either is NaN, the two
zeros compare equal). -/
def le : Dbl → Dbl → Bool
  | nan, _ => false
  | _, nan => false
  | ninf, _ => true
  | _, pinf => true
  | pinf, _ => false
  | _, ninf => false
  | negZero, negZero => true
  | negZero, fin b => decide (0 ≤ b)
  | fin a, negZero => decide (a ≤ 0)
  | fin a, fin b => decide (a ≤ b)

/-- The C comparison `a < b` on doubles. -/
def lt (a b : Dbl) : Bool := le a b && !le b a

/-- The conversion of an `int` to `double` (exact). -/
def ofInt (i : Int) : Dbl := fin i

end Dbl

/-- The parts of the C library and of the floating-point unit the program
calls.  `round q` is the double nearest to the non-zero rational `q` (as
`strtod` produces it); the others are the operations of the same name. -/
structure Platform where
  round : ℚ → Dbl
  add : Dbl → Dbl → Dbl
  sub : Dbl → Dbl → Dbl
  mul : Dbl → Dbl → Dbl
  div : Dbl → Dbl → Dbl
  pow : Dbl → Dbl → Dbl
  sin : Dbl → Dbl
  cos : Dbl → Dbl
  tan : Dbl → Dbl
  asin : Dbl → Dbl
  acos : Dbl → Dbl
  atan : Dbl → Dbl
  log10 : Dbl → Dbl
  log : Dbl → Dbl
  sqrt : Dbl → Dbl
  exp : Dbl → Dbl
  log2 : Dbl → Dbl
  toInt : Dbl → Int

/-! ## Characters and C string functions -/

/-- The C `isspace` in the "C" locale. -/
def isspace (c : Char) : Bool :=
  c = ' ' || c = '\t' || c = '\n' || c = '\x0b' || c = '\x0c' || c = '\r'

/-- The C `isdigit`. -/
def isdigit (c : Char) : Bool := '0' ≤ c && c ≤ '9'

/-- The C `isalnum` in the "C" locale. -/
def isalnum (c : Char) : Bool :=
  isdigit c || ('a' ≤ c && c ≤ 'z') || ('A' ≤ c && c ≤ 'Z')

/-- The C `isxdigit`. -/
def isxdigit (c : Char) : Bool :=
  isdigit c || ('a' ≤ c && c ≤ 'f') || ('A' ≤ c && c ≤ 'F')

/-- The value of a hexadecimal (or decimal) digit. -/
def digitVal (c : Char) : Nat :=
  if isdigit c then c.toNat - 48
  else if 'a' ≤ c && c ≤ 'f' then c.toNat - 87
  else c.toNat - 55

/-- Does `s` begin with `pat`? -/
def startsWith : List Char → List Char → Bool
  | [], _ => true
  | _ :: _, [] => false
  | p :: ps, c :: cs => p = c && startsWith ps cs

/-- The C `strstr(s, pat)`: the offset of the first occurrence of `pat` in
`s`, `none` for the null pointer. -/
def strstr (pat : List Char) : List Char → Option Nat
  | [] => if pat.isEmpty then some 0 else none
  | c :: t =>
    if startsWith pat (c :: t) then some 0
    else (strstr pat t).map (· + 1)

/-- The C `strchr(s, c)` for a non-NUL `c`: the offset of the first `c`. -/
def strchr (c : Char) : List Char → Option Nat
  | [] => none
  | d :: t => if d = c then some 0 else (strchr c t).map (· + 1)

/-! ## `printf("%f")` into a 32-byte buffer -/

/-- The character of a decimal digit. -/
def digitChar (n : Nat) : Char := Char.ofNat (48 + n % 10)

/-- The decimal digits of `n`, most significant first, in front of `acc`. -/
def decDigitsAux : Nat → Nat → List Char → List Char
  | 0, _, acc => acc
  | fuel + 1, n, acc =>
    if n / 10 = 0 then digitChar n :: acc
    else decDigitsAux fuel (n / 10) (digitChar n :: acc)

/-- The decimal digits of `n` (`"0"` for zero). -/
def decDigits (n : Nat) : List Char := decDigitsAux (n + 1) n []

/-- The natural number nearest to `num / den`, ties to even. -/
def roundHalfEven (num den : Nat) : Nat :=
  let fl := num / den
  let r := num % den
  if 2 * r < den then fl
  else if den < 2 * r then fl + 1
  else if fl % 2 = 0 then fl else fl + 1

/-- The text of a non-negative number given in millionths: the integer part,
a point, and six decimals. -/
def fixed6 (micro : Nat) : List Char :=
  decDigits (micro / 1000000) ++ '.' ::
    [100000, 10000, 1000, 100, 10, 1].map (fun p => digitChar (micro / p))

/-- The text `printf("%f", d)` writes. -/
def printf_f : Dbl → List Char
  | .nan => ['n', 'a', 'n']
  | .pinf => ['i', 'n', 'f']
  | .ninf => ['-', 'i', 'n', 'f']
  | .negZero => '-' :: fixed6 0
  | .fin q =>
    let body := fixed6 (roundHalfEven (q.num.natAbs * 1000000) q.den)
    if q < 0 then '-' :: body else body

/-- The call `snprintf(buf, 32, "%f", d)`: at most 31 characters are kept. -/
def snprintf_f (d : Dbl) : List Char := (printf_f d).take 31

/-! ## `strtod` -/

/-- Reads a run of digits of base `base` (10 or 16), continuing the number
`acc`: the number read, how many digits, and the rest of the text. -/
def takeDigits (base : Nat) : Nat → Nat → List Char → Nat × Nat × List Char
  | acc, n, [] => (acc, n, [])
  | acc, n, c :: t =>
    if (if base = 16 then isxdigit c else isdigit c) then
      takeDigits base (acc * base + digitVal c) (n + 1) t
    else (acc, n, c :: t)

/-- An optional exponent part: the marker (`e`/`E` or `p`/`P`, here its
lower-case form), an optional sign and at least one decimal digit.  Gives the
exponent and the number of characters it takes, `(0, 0)` when there is no
well-formed exponent. -/
def scanExponent (marker : Char) : List Char → Int × Nat
  | [] => (0, 0)
  | c :: t =>
    if c.toLower = marker then
      match t with
      | '-' :: u =>
        match takeDigits 10 0 0 u with
        | (_, 0, _) => (0, 0)
        | (v, k, _) => (-(v : Int), k + 2)
      | '+' :: u =>
        match takeDigits 10 0 0 u with
        | (_, 0, _) => (0, 0)
        | (v, k, _) => ((v : Int), k + 2)
      | u =>
        match takeDigits 10 0 0 u with
        | (_, 0, _) => (0, 0)
        | (v, k, _) => ((v : Int), k + 1)
    else (0, 0)

/-- The rational `m * b ^ e` for an integer exponent. -/
def scale (m : Nat) (b : Nat) (e : Int) : ℚ :=
  match e with
  | Int.ofNat k => (m * b ^ k : Nat)
  | Int.negSucc k => mkRat m (b ^ (k + 1))

/-- The double for the magnitude `m * b ^ e` read by `strtod`. -/
def magnitude (P : Platform) (m : Nat) (b : Nat) (e : Int) : Dbl :=
  if m = 0 then .fin 0 else P.round (scale m b e)

/-- A decimal or hexadecimal significand with its optional exponent, read
from the start of `s`: digits, optionally a point and more digits, at least
one digit in all.  Gives the value and the number of characters read. -/
def scanNumber (P : Platform) (base : Nat) (s : List Char) : Option (Dbl × Nat) :=
  match takeDigits base 0 0 s with
  | (m1, n1, r1) =>
    match (match r1 with
           | '.' :: t =>
             (match takeDigits base m1 0 t with
              | (m2, n2, r2) => (m2, n2, r2, 1))
           | _ => (m1, 0, r1, 0)) with
    | (m, n2, r, pt) =>
      if n1 + n2 = 0 then none
      else
        match scanExponent (if base = 16 then 'p' else 'e') r with
        | (ex, k) =>
          some (if base = 16 then magnitude P m 2 (ex - 4 * (n2 : Int))
                else magnitude P m 10 (ex - (n2 : Int)),
                n1 + pt + n2 + k)

/-- The characters of a `nan(...)` payload. -/
def isNChar (c : Char) : Bool := isalnum c || c = '_'

/-- The unsigned part of what `strtod` accepts: `inf`, `infinity`, `nan`,
`nan(chars)` (in any letter case), a hexadecimal number after `0x`/`0X`, or a
decimal number. -/
def scanUnsigned (P : Platform) (s : List Char) : Option (Dbl × Nat) :=
  let low := s.map Char.toLower
  if startsWith ['i', 'n', 'f', 'i', 'n', 'i', 't', 'y'] low then some (.pinf, 8)
  else if startsWith ['i', 'n', 'f'] low then some (.pinf, 3)
  else if startsWith ['n', 'a', 'n'] low then
    match s.drop 3 with
    | '(' :: t =>
      let k := (t.takeWhile isNChar).length
      match t.drop k with
      | ')' :: _ => some (.nan, k + 5)
      | _ => some (.nan, 3)
    | _ => some (.nan, 3)
  else if startsWith ['0', 'x'] low then
    match scanNumber P 16 (s.drop 2) with
    | some (v, n) => some (v, n + 2)
    | none => scanNumber P 10 s
  else scanNumber P 10 s

/-- The C `strtod(s, &end)`: the value and `end - s`, the number of characters
converted (white space and sign included); `(0, 0)` when no conversion is
possible. -/
def strtod (P : Platform) (s : List Char) : Dbl × Nat :=
  let ws := (s.takeWhile isspace).length
  match s.drop ws with
  | '-' :: t =>
    match scanUnsigned P t with
    | some (v, n) => (v.neg, ws + 1 + n)
    | none => (.fin 0, 0)
  | '+' :: t =>
    match scanUnsigned P t with
    | some (v, n) => (v, ws + 1 + n)
    | none => (.fin 0, 0)
  | t =>
    match scanUnsigned P t with
    | some (v, n) => (v, ws + n)
    | none => (.fin 0, 0)

/-! ## The function registry -/

/-- The constant `DBL_EPSILON`, two to the power -52. -/
def DBL_EPSILON : Dbl := .fin (1 / 4503599627370496)

/-- The C function `shannon_entropy`. -/
def shannon_entropy (P : Platform) (p : Dbl) : Dbl :=
  if Dbl.le p (.fin 0) || Dbl.le (.fin 1) p then .fin 0
  else
    let q := P.sub (.fin 1) p
    let entropy : Dbl := .fin 0
    let entropy := if Dbl.lt DBL_EPSILON p then P.sub entropy (P.mul p (P.log2 p)) else entropy
    let entropy := if Dbl.lt DBL_EPSILON q then P.sub entropy (P.mul q (P.log2 q)) else entropy
    entropy

/-- An entry of the registry: the C struct `Function`. -/
structure Function where
  name : List Char
  func : Dbl → Dbl

/-- The C table `functions`, in its order. -/
def functions (P : Platform) : List Function :=
  [ ⟨['s', 'i', 'n'], P.sin⟩,
    ⟨['c', 'o', 's'], P.cos⟩,
    ⟨['t', 'a', 'n'], P.tan⟩,
    ⟨['a', 's', 'i', 'n'], P.asin⟩,
    ⟨['a', 'c', 'o', 's'], P.acos⟩,
    ⟨['a', 't', 'a', 'n'], P.atan⟩,
    ⟨['l', 'o', 'g'], P.log10⟩,
    ⟨['l', 'n'], P.log⟩,
    ⟨['s', 'q', 'r', 't'], P.sqrt⟩,
    ⟨['e', 'x', 'p'], P.exp⟩,
    ⟨['e', 'n', 't', 'r', 'o', 'p', 'y'], shannon_entropy P⟩ ]

/-! ## Operators -/

/-- The C function `apply_operator`. -/
def apply_operator (P : Platform) (left right : Dbl) (op : Char) : Dbl :=
  if op = '+' then P.add left right
  else if op = '-' then P.sub left right
  else if op = '*' then P.mul left right
  else if op = '/' then (if right.neZero then P.div left right else .nan)
  else if op = '^' then P.pow left right
  else .nan

/-- The C function `is_operator`. -/
def is_operator (c : Char) : Bool :=
  c = '+' || c = '-' || c = '*' || c = '/' || c = '^'

/-- The C function `get_operator_precedence`. -/
def get_operator_precedence (op : Char) : Nat :=
  if op = '+' || op = '-' then 1
  else if op = '*' || op = '/' then 2
  else if op = '^' then 3
  else 0

/-! ## `evaluate_expression`: outcome -/

/-- What a call of `evaluate_expression` does: it returns a double, or it
reads an array slot that was never written (the value is indeterminate), or
it passes a null pointer to `strchr`, or it writes past the end of one of its
arrays `temp_expr`, `arg_str`, `values`, `operators`.  `outOfFuel` is not an
outcome of the C code: it marks the bound of the model's recursion. -/
inductive Outcome where
  | ret (d : Dbl)
  | uninitRead
  | nullDeref
  | bufferOverrun
  | outOfFuel
  deriving DecidableEq

/-! ## `evaluate_expression`: the parenthesis pass -/

/-- The first loop of `evaluate_expression`, started with `open_parens = n`:
the final count, or `none` where the loop returns `NAN`. -/
def parenScan : Nat → List Char → Option Nat
  | n, [] => some n
  | n, c :: t =>
    if c = '(' then parenScan (n + 1) t
    else if c = ')' then (if 0 < n then parenScan (n - 1) t else none)
    else parenScan n t

/-- The parenthesis pass: the buffer with the missing `)` appended, or `none`
where the function returns `NAN`. -/
def closeParens (expr : List Char) : Option (List Char) :=
  (parenScan 0 expr).map (fun n => expr ++ List.replicate n ')')

/-! ## `evaluate_expression`: substitutions -/

/-- The loop `pos = strstr(buf, pat); while (pos) { put rep in place of pat;
pos = strstr(pos + strlen(rep), pat); }` on the text from the search position
on; the first argument counts characters of a matched `pat` still to drop. -/
def replaceAll (pat rep : List Char) : Nat → List Char → List Char
  | _, [] => []
  | k + 1, _ :: t => replaceAll pat rep k t
  | 0, c :: t =>
    if startsWith pat (c :: t) then rep ++ replaceAll pat rep (pat.length - 1) t
    else c :: replaceAll pat rep 0 t

/-- The text put in place of `pi`. -/
def PI_TEXT : List Char :=
  ['3', '.', '1', '4', '1', '5', '9', '2', '6', '5', '3', '5', '8', '9', '7', '9', '3']

/-- The text put in place of `tau`. -/
def TAU_TEXT : List Char :=
  ['6', '.', '2', '8', '3', '1', '8', '5', '3', '0', '7', '1', '7', '9', '5', '8', '6']

/-- The text put in place of `e`. -/
def E_TEXT : List Char :=
  ['2', '.', '7', '1', '8', '2', '8', '1', '8', '2', '8', '4', '5', '9', '0', '4', '5']

/-- The loop that replaces `e`: `prev` is the character before the search
position (`none` at the start of the buffer).  The first `e` found is replaced
when it starts the buffer or follows a non-alphanumeric character, and the
search goes on after the inserted text; otherwise the loop ends and the rest
of the buffer stays as it is. -/
def replaceE : Option Char → List Char → List Char
  | _, [] => []
  | prev, c :: t =>
    if c = 'e' then
      (match prev with
       | none => E_TEXT ++ replaceE (some '5') t
       | some p => if isalnum p then c :: t else E_TEXT ++ replaceE (some '5') t)
    else c :: replaceE (some c) t

/-! ## `evaluate_expression`: function calls -/

/-- The `while (func_pos != NULL)` loop for one registry entry, with
`func_pos = buf + pos`; `recur` is the recursive call of
`evaluate_expression` on the argument text. -/
def funcLoop (f : Function) (recur : List Char → Outcome) :
    Nat → List Char → Nat → Except Outcome (List Char)
  | 0, _, _ => .error .outOfFuel
  | fuel + 1, buf, pos =>
    let rest := buf.drop pos
    match strchr '(' rest with
    | none => .error .nullDeref
    | some o =>
      match (match strchr ')' (rest.drop o) with
             | none => Except.ok buf
             | some c =>
               match recur ((rest.drop (o + 1)).take (c - 1)) with
               | .ret arg =>
                 Except.ok (buf.take pos ++ snprintf_f (f.func arg) ++ rest.drop (o + c + 1))
               | bad => Except.error bad) with
      | .error bad => .error bad
      | .ok buf1 =>
        match strstr f.name (buf1.drop (pos + 1)) with
        | none => .ok buf1
        | some k => funcLoop f recur fuel buf1 (pos + 1 + k)

/-- One turn of the `for` loop over the registry. -/
def funcEntry (f : Function) (recur : List Char → Outcome) (buf : List Char) :
    Except Outcome (List Char) :=
  match strstr f.name buf with
  | none => .ok buf
  | some pos => funcLoop f recur (buf.length + 1) buf pos

/-- The `for` loop over the registry. -/
def funcPass (recur : List Char → Outcome) :
    List Function → List Char → Except Outcome (List Char)
  | [], buf => .ok buf
  | f :: fs, buf =>
    match funcEntry f recur buf with
    | .error bad => .error bad
    | .ok buf1 => funcPass recur fs buf1

/-! ## `evaluate_expression`: the tokenizer -/

/-- The value branch of the tokenizer at the character `c` followed by `t`,
`prev` being the character before `c`: the value and the number of characters
of `t` to pass over, or `none` for the invalid token (`return NAN`). -/
def readValue (P : Platform) (prev : Option Char) (c : Char) (t : List Char) :
    Option (Dbl × Nat) :=
  if c = '-' && (match prev with
                 | none => true
                 | some p => is_operator p) then
    some ((strtod P t).1.neg, (strtod P t).2)
  else if (strtod P (c :: t)).2 = 0 then none
  else some ((strtod P (c :: t)).1, (strtod P (c :: t)).2 - 1)

/-- The tokenizer loop `while (*token)`.  `skip` counts the characters
already taken by `strtod`, `prev` is the character before `token`,
`expecting` is `expecting_operator`, `vals` and `ops` are the written parts of
`values` and `operators`.  `none` is the `return NAN` of an invalid token.
Where the C code appends the implicit `*` and runs `continue`, the next turn
of the loop sees the same character with `expecting_operator == 0`, so it goes
to the value branch: that turn is done here at once. -/
def tokenize (P : Platform) :
    Nat → Option Char → Bool → List Dbl → List Char → List Char →
      Option (List Dbl × List Char)
  | _, _, _, vals, ops, [] => some (vals, ops)
  | skip + 1, _, expecting, vals, ops, c :: t =>
    tokenize P skip (some c) expecting vals ops t
  | 0, prev, expecting, vals, ops, c :: t =>
    if isspace c then tokenize P 0 (some c) expecting vals ops t
    else if expecting && is_operator c then
      tokenize P 0 (some c) false vals (ops ++ [c]) t
    else
      match readValue P prev c t with
      | none => none
      | some (v, n) =>
        tokenize P n (some c) true (vals ++ [v])
          (if expecting then ops ++ ['*'] else ops) t

/-! ## `evaluate_expression`: the reduction -/

/-- The loop `for (; j < stop - 1; j++) a[j] = a[j+1];` run for `n` turns
from `j`; `none` when it reads a slot that was never written. -/
def shiftLoop {α : Type} : Nat → Nat → List α → Option (List α)
  | 0, _, a => some a
  | n + 1, j, a =>
    match a.get? (j + 1) with
    | none => none
    | some v => shiftLoop n (j + 1) (a.set j v)

/-- The arrays `values` and `operators` (their written parts) and the two
counters. -/
structure Tokens where
  values : List Dbl
  value_count : Nat
  operators : List Char
  operator_count : Nat
  deriving DecidableEq

/-- The body of `if (get_operator_precedence(operators[i]) == precedence)`,
up to and including the two decrements; `none` when a slot that was never
written is read. -/
def reduceAt (P : Platform) (s : Tokens) (i : Nat) : Option Tokens :=
  match s.values.get? i, s.values.get? (i + 1), s.operators.get? i with
  | some l, some r, some op =>
    match shiftLoop (s.value_count - 1 - (i + 1)) (i + 1)
        (s.values.set i (apply_operator P l r op)) with
    | none => none
    | some vals =>
      match shiftLoop (s.operator_count - 1 - i) i s.operators with
      | none => none
      | some ops => some ⟨vals, s.value_count - 1, ops, s.operator_count - 1⟩
  | _, _, _ => none

/-- The loop `for (i = 0; i < operator_count; i++)` for one precedence, from
index `i`; the first argument bounds the turns left (`operator_count - i`
suffices: a turn either advances `i` or removes an operator and looks at the
same index again). -/
def levelLoop (P : Platform) (precedence : Nat) : Nat → Nat → Tokens → Option Tokens
  | 0, _, s => some s
  | n + 1, i, s =>
    if i < s.operator_count then
      match s.operators.get? i with
      | none => none
      | some op =>
        if get_operator_precedence op = precedence then
          match reduceAt P s i with
          | none => none
          | some s1 => levelLoop P precedence n i s1
        else levelLoop P precedence n (i + 1) s
    else some s

/-- One turn of `for (precedence = 3; precedence > 0; precedence--)`. -/
def reduceLevel (P : Platform) (precedence : Nat) (s : Tokens) : Option Tokens :=
  levelLoop P precedence s.operator_count 0 s

/-- The reduction loops followed by `return values[0]`. -/
def reduce (P : Platform) (vals : List Dbl) (ops : List Char) : Outcome :=
  match (reduceLevel P 3 ⟨vals, vals.length, ops, ops.length⟩).bind
      (fun s => (reduceLevel P 2 s).bind (reduceLevel P 1)) with
  | none => .uninitRead
  | some s =>
    match s.values.get? 0 with
    | none => .uninitRead
    | some v => .ret v

/-! ## `evaluate_expression` -/

/-- The number of `(` in a text. -/
def countOpen (s : List Char) : Nat := s.count '('

/-- The text of the buffer after the parenthesis pass and the substitution of
`x`, `pi`, `tau` and `e`; `none` where the parenthesis pass returns `NAN`. -/
def substitute (expr : List Char) (x : Dbl) : Option (List Char) :=
  (closeParens expr).map (fun b =>
    replaceE none
      (replaceAll ['t', 'a', 'u'] TAU_TEXT 0
        (replaceAll ['p', 'i'] PI_TEXT 0
          (replaceAll ['x'] (snprintf_f x) 0 b))))

/-- The tokenizer and the reduction on the final buffer. -/
def evalArith (P : Platform) (buf : List Char) : Outcome :=
  match tokenize P 0 none false [] [] buf with
  | none => .ret .nan
  | some (vals, ops) => reduce P vals ops

/-- The C function `evaluate_expression` with its recursion bounded by the
first argument. -/
def evalFuel (P : Platform) : Nat → List Char → Dbl → Outcome
  | 0, _, _ => .outOfFuel
  | fuel + 1, expr, x =>
    match substitute expr x with
    | none => .ret .nan
    | some buf =>
      match funcPass (fun arg => evalFuel P fuel arg x) (functions P) buf with
      | .error bad => bad
      | .ok buf1 => evalArith P buf1

/-- The C function `evaluate_expression`.  An argument text has fewer `(`
than the text it is cut from, so one more level of recursion than the
expression has `(` is enough. -/
def evaluate_expression (P : Platform) (expr : List Char) (x : Dbl) : Outcome :=
  evalFuel P (countOpen expr + 1) expr x

/-! ## `evaluate_expression` with the sizes of its arrays

The same function once more, now with the writes past the end of
`temp_expr[MAX_EXPR_LENGTH * 2]`, `arg_str[MAX_EXPR_LENGTH]`,
`values[MAX_EXPR_LENGTH]` and `operators[MAX_EXPR_LENGTH]` as the outcome
`bufferOverrun`.  Where no array is overrun the outcome is that of
`evaluate_expression` above. -/

/-- The constant `MAX_EXPR_LENGTH`. -/
def MAX_EXPR_LENGTH : Nat := 256

/-- Does the text, with its terminating NUL, fit `temp_expr`? -/
def fitsTempExpr (s : List Char) : Bool := decide (s.length < MAX_EXPR_LENGTH * 2)

/-- The start of `evaluate_expression`, up to the substitution of `e`.
`strcpy`, the `strcat` loop and the four replacement loops each leave a text
in `temp_expr`; a replacement never shortens the text (the text of a double
is not empty), so a loop writes past the end of `temp_expr` exactly when the
text it leaves does not fit.  `.error (.ret .nan)` is the `return NAN` of the
parenthesis pass. -/
def substituteBounded (expr : List Char) (x : Dbl) : Except Outcome (List Char) :=
  if fitsTempExpr expr then
    match closeParens expr with
    | none => .error (.ret .nan)
    | some b0 =>
      if fitsTempExpr b0 then
        if fitsTempExpr (replaceAll ['x'] (snprintf_f x) 0 b0) then
          if fitsTempExpr (replaceAll ['p', 'i'] PI_TEXT 0
              (replaceAll ['x'] (snprintf_f x) 0 b0)) then
            if fitsTempExpr (replaceAll ['t', 'a', 'u'] TAU_TEXT 0
                (replaceAll ['p', 'i'] PI_TEXT 0 (replaceAll ['x'] (snprintf_f x) 0 b0))) then
              if fitsTempExpr (replaceE none (replaceAll ['t', 'a', 'u'] TAU_TEXT 0
                  (replaceAll ['p', 'i'] PI_TEXT 0
                    (replaceAll ['x'] (snprintf_f x) 0 b0)))) then
                .ok (replaceE none (replaceAll ['t', 'a', 'u'] TAU_TEXT 0
                  (replaceAll ['p', 'i'] PI_TEXT 0 (replaceAll ['x'] (snprintf_f x) 0 b0))))
              else .error .bufferOverrun
            else .error .bufferOverrun
          else .error .bufferOverrun
        else .error .bufferOverrun
      else .error .bufferOverrun
  else .error .bufferOverrun

/-- The `while (func_pos != NULL)` loop for one registry entry, as `funcLoop`,
with the sizes of the arrays: `arg_str[close_paren - open_paren - 1] = 0` is a
write past `arg_str` when the argument has `MAX_EXPR_LENGTH` characters or
more, and the `memmove` writes past `temp_expr` when the text with the result
in place of the call does not fit. -/
def funcLoopBounded (f : Function) (recur : List Char → Outcome) :
    Nat → List Char → Nat → Except Outcome (List Char)
  | 0, _, _ => .error .outOfFuel
  | fuel + 1, buf, pos =>
    let rest := buf.drop pos
    match strchr '(' rest with
    | none => .error .nullDeref
    | some o =>
      match (match strchr ')' (rest.drop o) with
             | none => Except.ok buf
             | some c =>
               if c - 1 < MAX_EXPR_LENGTH then
                 match recur ((rest.drop (o + 1)).take (c - 1)) with
                 | .ret arg =>
                   if fitsTempExpr (buf.take pos ++ snprintf_f (f.func arg) ++
                       rest.drop (o + c + 1)) then
                     Except.ok (buf.take pos ++ snprintf_f (f.func arg) ++ rest.drop (o + c + 1))
                   else Except.error Outcome.bufferOverrun
                 | bad => Except.error bad
               else Except.error Outcome.bufferOverrun) with
      | .error bad => .error bad
      | .ok buf1 =>
        match strstr f.name (buf1.drop (pos + 1)) with
        | none => .ok buf1
        | some k => funcLoopBounded f recur fuel buf1 (pos + 1 + k)

/-- One turn of the `for` loop over the registry, with the sizes of the
arrays. -/
def funcEntryBounded (f : Function) (recur : List Char → Outcome) (buf : List Char) :
    Except Outcome (List Char) :=
  match strstr f.name buf with
  | none => .ok buf
  | some pos => funcLoopBounded f recur (buf.length + 1) buf pos

/-- The `for` loop over the registry, with the sizes of the arrays. -/
def funcPassBounded (recur : List Char → Outcome) :
    List Function → List Char → Except Outcome (List Char)
  | [], buf => .ok buf
  | f :: fs, buf =>
    match funcEntryBounded f recur buf with
    | .error bad => .error bad
    | .ok buf1 => funcPassBounded recur fs buf1

/-- The tokenizer loop, as `tokenize`, with the sizes of the arrays:
`operators[operator_count++] = ...` and `values[value_count++] = ...` write
past the array when the counter has reached `MAX_EXPR_LENGTH`.  The value is
stored before the test `end == token`, so the overrun comes before the
`return NAN` of an invalid token, which is `.error (.ret .nan)` here. -/
def tokenizeBounded (P : Platform) :
    Nat → Option Char → Bool → List Dbl → List Char → List Char →
      Except Outcome (List Dbl × List Char)
  | _, _, _, vals, ops, [] => .ok (vals, ops)
  | skip + 1, _, expecting, vals, ops, c :: t =>
    tokenizeBounded P skip (some c) expecting vals ops t
  | 0, prev, expecting, vals, ops, c :: t =>
    if isspace c then tokenizeBounded P 0 (some c) expecting vals ops t
    else if expecting && is_operator c then
      if ops.length < MAX_EXPR_LENGTH then
        tokenizeBounded P 0 (some c) false vals (ops ++ [c]) t
      else .error .bufferOverrun
    else if expecting && !decide (ops.length < MAX_EXPR_LENGTH) then
      Except.error Outcome.bufferOverrun
    else if vals.length < MAX_EXPR_LENGTH then
      match readValue P prev c t with
      | none => .error (.ret .nan)
      | some (v, n) =>
        tokenizeBounded P n (some c) true (vals ++ [v])
          (if expecting then ops ++ ['*'] else ops) t
    else .error .bufferOverrun

/-- The tokenizer and the reduction on the final buffer, with the sizes of
the arrays. -/
def evalArithBounded (P : Platform) (buf : List Char) : Outcome :=
  match tokenizeBounded P 0 none false [] [] buf with
  | .error bad => bad
  | .ok (vals, ops) => reduce P vals ops

/-- The C function `evaluate_expression` with the sizes of its arrays, its
recursion bounded by the first argument. -/
def evalFuelBounded (P : Platform) : Nat → List Char → Dbl → Outcome
  | 0, _, _ => .outOfFuel
  | fuel + 1, expr, x =>
    match substituteBounded expr x with
    | .error bad => bad
    | .ok buf =>
      match funcPassBounded (fun arg => evalFuelBounded P fuel arg x) (functions P) buf with
      | .error bad => bad
      | .ok buf1 => evalArithBounded P buf1

/-- The C function `evaluate_expression` with the sizes of its arrays. -/
def evaluate_expression_bounded (P : Platform) (expr : List Char) (x : Dbl) : Outcome :=
  evalFuelBounded P (countOpen expr + 1) expr x

/-! ## The viewport and `zoom` -/

/-- The globals `x_min`, `x_max`, `y_min`, `y_max`. -/
structure Viewport (α : Type) where
  x_min : α
  x_max : α
  y_min : α
  y_max : α
  deriving DecidableEq

/-- The C function `zoom` on the four globals; the redraw request is left
out.  The `2` of `/ 2` is the `int` converted to `double`. -/
def zoom (P : Platform) (factor : Dbl) (v : Viewport Dbl) : Viewport Dbl :=
  let center_x := P.div (P.add v.x_max v.x_min) (Dbl.ofInt 2)
  let center_y := P.div (P.add v.y_max v.y_min) (Dbl.ofInt 2)
  let new_width := P.mul (P.sub v.x_max v.x_min) factor
  let new_height := P.mul (P.sub v.y_max v.y_min) factor
  { x_min := P.sub center_x (P.div new_width (Dbl.ofInt 2))
    x_max := P.add center_x (P.div new_width (Dbl.ofInt 2))
    y_min := P.sub center_y (P.div new_height (Dbl.ofInt 2))
    y_max := P.add center_y (P.div new_height (Dbl.ofInt 2)) }

/-- The C function `zoom_in`: `zoom(0.8)`, the literal being the double
nearest to `4 / 5`. -/
def zoom_in (P : Platform) (v : Viewport Dbl) : Viewport Dbl := zoom P (P.round (4 / 5)) v

/-- The C function `zoom_out`: `zoom(1.25)`, the literal being the double
nearest to `5 / 4`. -/
def zoom_out (P : Platform) (v : Viewport Dbl) : Viewport Dbl := zoom P (P.round (5 / 4)) v

/-- The C function `reset_zoom`. -/
def reset_zoom (_ : Viewport Dbl) : Viewport Dbl :=
  ⟨Dbl.ofInt (-10), Dbl.ofInt 10, Dbl.ofInt (-10), Dbl.ofInt 10⟩

/-! ## The sampling loop of `draw_graph` -/

/-- A call of `cairo_move_to` or `cairo_line_to` with its pixel column and
row. -/
inductive PathCmd where
  | move_to (col row : Int)
  | line_to (col row : Int)
  deriving DecidableEq

/-- The pixel column of a path command. -/
def PathCmd.col : PathCmd → Int
  | .move_to c _ => c
  | .line_to c _ => c

/-- The pixel row of a path command. -/
def PathCmd.row : PathCmd → Int
  | .move_to _ r => r
  | .line_to _ r => r

/-- Is the command a `cairo_move_to`? -/
def PathCmd.isMove : PathCmd → Bool
  | .move_to _ _ => true
  | .line_to _ _ => false

/-- A C `int` after an arithmetic overflow, as two's complement wraps it. -/
def wrapInt (v : Int) : Int := (v + 2147483648) % 4294967296 - 2147483648

/-- The abscissa of pixel column `i`: `x_min + (x_max - x_min) * i / width`. -/
def columnX (P : Platform) (v : Viewport Dbl) (width i : Int) : Dbl :=
  P.add v.x_min (P.div (P.mul (P.sub v.x_max v.x_min) (Dbl.ofInt i)) (Dbl.ofInt width))

/-- The pixel row of the value `y`: `graph_y` after the two clamping tests. -/
def pixelRow (P : Platform) (v : Viewport Dbl) (height : Int) (y : Dbl) : Int :=
  let graph_y := wrapInt (height -
    P.toInt (P.mul (P.div (P.sub y v.y_min) (P.sub v.y_max v.y_min)) (Dbl.ofInt height)))
  let graph_y := if graph_y < 0 then 0 else graph_y
  if graph_y > height then height else graph_y

/-- Equality of the results of the plotting loop is decidable. -/
instance instDecidableEqExcept {ε α : Type} [DecidableEq ε] [DecidableEq α] :
    DecidableEq (Except ε α) := fun a b =>
  match a, b with
  | .ok x, .ok y =>
    if h : x = y then isTrue (by rw [h]) else isFalse (fun h1 => h (by cases h1; rfl))
  | .error x, .error y =>
    if h : x = y then isTrue (by rw [h]) else isFalse (fun h1 => h (by cases h1; rfl))
  | .ok _, .error _ => isFalse (fun h1 => by cases h1)
  | .error _, .ok _ => isFalse (fun h1 => by cases h1)

/-- The loop `for (int i = 0; i < width; i++)` of `draw_graph` over the
columns still to do, with the flag `first_point`: the path commands it
issues, in order, or the undefined behaviour `evaluate_expression` ran
into. -/
def drawLoop (P : Platform) (graph_expr : List Char) (v : Viewport Dbl)
    (width height : Int) : Bool → List Nat → Except Outcome (List PathCmd)
  | _, [] => .ok []
  | first_point, i :: cols =>
    match evaluate_expression P graph_expr (columnX P v width i) with
    | .ret y =>
      if y.isNaN || y.isInf then drawLoop P graph_expr v width height first_point cols
      else
        match drawLoop P graph_expr v width height false cols with
        | .error bad => .error bad
        | .ok rest =>
          .ok ((if first_point then PathCmd.move_to i (pixelRow P v height y)
                else PathCmd.line_to i (pixelRow P v height y)) :: rest)
    | bad => .error bad

/-- The graph part of the C function `draw_graph`: the path commands between
`cairo_set_line_width` and `cairo_stroke`. -/
def draw_graph (P : Platform) (graph_expr : List Char) (v : Viewport Dbl)
    (width height : Int) : Except Outcome (List PathCmd) :=
  drawLoop P graph_expr v width height true (List.range width.toNat)

/-! ## The reference evaluation of a token stream -/

/-- One pass of the reference evaluation over a first value `acc` and the
operator-value pairs after it: every operator of the given precedence is
combined, left to right, with `apply_operator`; the others stay. -/
def refPass (P : Platform) (precedence : Nat) : Dbl → List (Char × Dbl) → Dbl × List (Char × Dbl)
  | acc, [] => (acc, [])
  | acc, (op, v) :: rest =>
    if get_operator_precedence op = precedence then
      refPass P precedence (apply_operator P acc v op) rest
    else (acc, (op, (refPass P precedence v rest).1) :: (refPass P precedence v rest).2)

/-- The reference evaluation: first every `^`, then every `*` and `/`, then
every `+` and `-`, each pass left to right. -/
def refEval (P : Platform) (v0 : Dbl) (rest : List (Char × Dbl)) : Dbl :=
  let p3 := refPass P 3 v0 rest
  let p2 := refPass P 2 p3.1 p3.2
  (refPass P 1 p2.1 p2.2).1

/-! ## Auxiliary predicates -/

/-- The characters `printf("%f")` can write. -/
def fmtChar (c : Char) : Bool :=
  isdigit c || c = '.' || c = '-' || c = 'i' || c = 'n' || c = 'f' || c = 'a'

/-- Does column `i` give a value that is neither NaN nor infinite? -/
def plotted (P : Platform) (graph_expr : List Char) (v : Viewport Dbl) (width : Int)
    (i : Nat) : Bool :=
  match evaluate_expression P graph_expr (columnX P v width i) with
  | .ret y => !(y.isNaN || y.isInf)
  | _ => false

/-- The characters of the numeric texts `printf("%f")` writes. -/
def numChar (c : Char) : Bool := isdigit c || c = '.' || c = '-'

/-- Can a name of the registry start the text?  (A necessary condition, read
from the first two characters.) -/
def nameStart : List Char → Bool
  | c :: d :: _ =>
    c = 's' || c = 'c' || c = 't' || c = 'l' || c = 'e' ||
      (c = 'a' && (d = 's' || d = 'c' || d = 't'))
  | _ => false

/-- The number of places of a text where `pat` starts. -/
def occurrences (pat : List Char) : List Char → Nat
  | [] => 0
  | c :: t => (if startsWith pat (c :: t) then 1 else 0) + occurrences pat t

/-- The unsigned numeric texts `printf("%f")` writes, cut or not: digits, or
digits, a point and digits. -/
def NumText (U : List Char) : Prop :=
  ∃ F1 F2 : List Char, F1 ≠ [] ∧ (∀ c ∈ F1, isdigit c = true) ∧ (∀ c ∈ F2, isdigit c = true) ∧
    (U = F1 ∨ U = F1 ++ '.' :: F2)

/-- What may follow a number in a buffer for the scan to stop there: the end
of the text or a `)`. -/
def StopTail (tail : List Char) : Prop := tail = [] ∨ ∃ r, tail = ')' :: r

/-! ## A reference platform

Exact rational arithmetic with the IEEE 754 rules for NaN, the infinities and
the signed zeros, and no rounding: it agrees with binary64 wherever every
intermediate result is a binary64 number.  `pow` and the `<math.h>` functions
are tabulated at a few arguments with rational results and give NaN
elsewhere.  It serves the concrete runs below; the general theorems hold for
every `Platform`. -/

namespace Ref

/-- The sign bit of a double (false for NaN). -/
def sign : Dbl → Bool
  | .ninf => true
  | .negZero => true
  | .fin q => decide (q < 0)
  | _ => false

/-- The magnitude of a finite double. -/
def mag : Dbl → ℚ
  | .fin q => |q|
  | _ => 0

/-- Is the double finite? -/
def finite : Dbl → Bool
  | .fin _ => true
  | .negZero => true
  | _ => false

/-- The finite double of the given sign and magnitude. -/
def mkFin (s : Bool) (m : ℚ) : Dbl :=
  if m = 0 then (if s then .negZero else .fin 0) else .fin (if s then -m else m)

/-- The infinity of the given sign. -/
def mkInf (s : Bool) : Dbl := if s then .ninf else .pinf

/-- Exact addition. -/
def add : Dbl → Dbl → Dbl
  | .nan, _ => .nan
  | _, .nan => .nan
  | .pinf, .ninf => .nan
  | .ninf, .pinf => .nan
  | .pinf, _ => .pinf
  | _, .pinf => .pinf
  | .ninf, _ => .ninf
  | _, .ninf => .ninf
  | .negZero, .negZero => .negZero
  | .negZero, .fin b => .fin b
  | .fin a, .negZero => .fin a
  | .fin a, .fin b => .fin (a + b)

/-- Exact subtraction. -/
def sub (a b : Dbl) : Dbl := add a b.neg

/-- Exact multiplication. -/
def mul (a b : Dbl) : Dbl :=
  if a.isNaN || b.isNaN then .nan
  else if (a.isInf && !b.neZero) || (!a.neZero && b.isInf) then .nan
  else if a.isInf || b.isInf then mkInf (sign a != sign b)
  else mkFin (sign a != sign b) (mag a * mag b)

/-- Exact division. -/
def div (a b : Dbl) : Dbl :=
  if a.isNaN || b.isNaN then .nan
  else if (a.isInf && b.isInf) || (!a.neZero && !b.neZero) then .nan
  else if a.isInf || !b.neZero then mkInf (sign a != sign b)
  else if b.isInf then mkFin (sign a != sign b) 0
  else mkFin (sign a != sign b) (mag a / mag b)

/-- Powers with a natural exponent, exactly; NaN elsewhere. -/
def pow : Dbl → Dbl → Dbl
  | .fin a, .fin b => if b.den = 1 ∧ 0 ≤ b.num then .fin (a ^ b.num.toNat) else .nan
  | _, _ => .nan

/-- A function known only at zero, where it is zero and keeps the sign. -/
def oddAtZero : Dbl → Dbl
  | .fin q => if q = 0 then .fin 0 else .nan
  | .negZero => .negZero
  | _ => .nan

/-- A function known only at the argument `a`, where it is `b`. -/
def knownAt (a b : ℚ) : Dbl → Dbl
  | .fin q => if q = a then .fin b else .nan
  | .negZero => if a = 0 then .fin b else .nan
  | _ => .nan

/-- The conversion to `int`: truncation, and the smallest `int` for what has
no `int` value. -/
def toInt : Dbl → Int
  | .fin q =>
    let t : Int := if 0 ≤ q.num then (q.num.natAbs / q.den : Nat) else -((q.num.natAbs / q.den : Nat) : Int)
    if -2147483648 ≤ t ∧ t ≤ 2147483647 then t else -2147483648
  | .negZero => 0
  | _ => -2147483648

end Ref

/-- The reference platform. -/
def refPlatform : Platform where
  round := Dbl.fin
  add := Ref.add
  sub := Ref.sub
  mul := Ref.mul
  div := Ref.div
  pow := Ref.pow
  sin := Ref.oddAtZero
  cos := Ref.knownAt 0 1
  tan := Ref.oddAtZero
  asin := Ref.oddAtZero
  acos := Ref.knownAt 1 0
  atan := Ref.oddAtZero
  log10 := Ref.knownAt 1 0
  log := Ref.knownAt 1 0
  sqrt := Ref.oddAtZero
  exp := Ref.knownAt 0 1
  log2 := Ref.knownAt 1 0
  toInt := Ref.toInt


/-! ## The binary64 platform

IEEE 754 binary64 with rounding to nearest, ties to even: the arithmetic of
the C `double` for `+ - * /` and for the conversion of a decimal text or
literal.  `pow` and the `<math.h>` functions, which `zoom` does not call, are
tabulated as on the reference platform. -/

namespace B64

/-- The binary logarithm of `n`, rounded down, in at most `fuel` halvings. -/
def log2Fuel : Nat → Nat → Nat
  | 0, _ => 0
  | fuel + 1, n => if 2 ≤ n then log2Fuel fuel (n / 2) + 1 else 0

/-- The binary logarithm of `n`, rounded down (0 for `n = 0`). -/
def log2 (n : Nat) : Nat := log2Fuel n n

/-- The exponent `e` with `2 ^ e ≤ n / d < 2 ^ (e + 1)`, for positive `n` and
`d`. -/
def exponent (n d : Nat) : Int :=
  let e0 : Int := (log2 n : Int) - (log2 d : Int)
  if (match e0 with
      | Int.ofNat k => decide (d * 2 ^ k ≤ n)
      | Int.negSucc k => decide (d ≤ n * 2 ^ (k + 1))) then e0 else e0 - 1

/-- The binary64 number nearest to the magnitude `n / d` (positive `n` and
`d`), ties to even, as an integer multiple `m` of `2 ^ p`: the pair
`(m, p)`.  The quantum `2 ^ p` is that of the binade of `n / d`, and is
`2 ^ -1074` in the subnormal range. -/
def nearest (n d : Nat) : Nat × Int :=
  let p : Int := max (exponent n d - 52) (-1074)
  match p with
  | Int.ofNat k => (roundHalfEven n (d * 2 ^ k), p)
  | Int.negSucc k => (roundHalfEven (n * 2 ^ (k + 1)) d, p)

/-- The double nearest to the rational `q`: an infinity from `2 ^ 1024` on, a
zero of the sign of `q` where the nearest multiple of the quantum is 0. -/
def round (q : ℚ) : Dbl :=
  if q = 0 then .fin 0
  else
    match nearest q.num.natAbs q.den with
    | (m, p) =>
      if m = 0 then (if q < 0 then .negZero else .fin 0)
      else if (2 : ℚ) ^ 1024 ≤ scale m 2 p then (if q < 0 then .ninf else .pinf)
      else .fin (if q < 0 then -scale m 2 p else scale m 2 p)

/-- Rounds a finite result, keeps the others. -/
def roundDbl : Dbl → Dbl
  | .fin q => round q
  | d => d

/-- Addition in binary64. -/
def add (a b : Dbl) : Dbl := roundDbl (Ref.add a b)

/-- Subtraction in binary64. -/
def sub (a b : Dbl) : Dbl := roundDbl (Ref.sub a b)

/-- Multiplication in binary64. -/
def mul (a b : Dbl) : Dbl := roundDbl (Ref.mul a b)

/-- Division in binary64. -/
def div (a b : Dbl) : Dbl := roundDbl (Ref.div a b)

end B64

/-- The binary64 platform: a C implementation whose `double` is IEEE 754
binary64 and which rounds the result of every operation to that format. -/
def binary64 : Platform where
  round := B64.round
  add := B64.add
  sub := B64.sub
  mul := B64.mul
  div := B64.div
  pow := fun a b => B64.roundDbl (Ref.pow a b)
  sin := Ref.oddAtZero
  cos := Ref.knownAt 0 1
  tan := Ref.oddAtZero
  asin := Ref.oddAtZero
  acos := Ref.knownAt 1 0
  atan := Ref.oddAtZero
  log10 := Ref.knownAt 1 0
  log := Ref.knownAt 1 0
  sqrt := Ref.oddAtZero
  exp := Ref.knownAt 0 1
  log2 := Ref.knownAt 1 0
  toInt := Ref.toInt

/-! ## Finite values, rounding errors, exact arithmetic -/

/-- The rational value of a finite double (both zeros have the value 0);
`none` for NaN and the infinities. -/
def Dbl.value : Dbl → Option ℚ
  | .fin q => some q
  | .negZero => some 0
  | _ => none

/-- Half the smallest positive binary64 number, `2 ^ -1075`: the largest
rounding error in the subnormal range. -/
def B64.tiny : ℚ := 1 / 2 ^ 1075

/-- A magnitude, `2 ^ 1023`, up to which no rational rounds to an infinity. -/
def B64.huge : ℚ := 2 ^ 1023

/-- A platform whose arithmetic is exact on the finite values: the conversion
of a rational, the sum and the difference of two finite values, and the
product and the quotient of a finite value by a positive one are the exact
results.  The reference platform is one; binary64 is not. -/
structure ExactArith (P : Platform) : Prop where
  round_fin : ∀ q : ℚ, P.round q = .fin q
  add_fin : ∀ a b : ℚ, P.add (.fin a) (.fin b) = .fin (a + b)
  sub_fin : ∀ a b : ℚ, P.sub (.fin a) (.fin b) = .fin (a - b)
  mul_pos : ∀ a b : ℚ, 0 < b → P.mul (.fin a) (.fin b) = .fin (a * b)
  div_pos : ∀ a b : ℚ, 0 < b → P.div (.fin a) (.fin b) = .fin (a / b)

/-! ## Lemmas -/

theorem get?_append_add {α : Type} (A L : List α) (k : Nat) :
    (A ++ L).get? (A.length + k) = L.get? k := by
  induction A with
  | nil => simp
  | cons a A ih =>
    have : (a :: A).length + k = (A.length + k) + 1 := by simp; omega
    rw [this]
    simpa using ih

theorem get?_append_length {α : Type} (A L : List α) :
    (A ++ L).get? A.length = L.get? 0 := by
  simpa using get?_append_add A L 0

theorem set_append_length {α : Type} (A L : List α) (x y : α) :
    (A ++ x :: L).set A.length y = A ++ y :: L := by
  induction A with
  | nil => rfl
  | cons a A ih => simp [ih]

theorem shiftLoop_spec {α : Type} (M : List α) : ∀ (A T : List α) (x : α),
    ∃ y, shiftLoop M.length A.length (A ++ x :: (M ++ T)) = some (A ++ (M ++ y :: T)) := by
  induction M with
  | nil => intro A T x; exact ⟨x, rfl⟩
  | cons m M ih =>
    intro A T x
    obtain ⟨y, hy⟩ := ih (A ++ [m]) T m
    refine ⟨y, ?_⟩
    have h1 : (A ++ x :: (m :: M ++ T)).get? (A.length + 1) = some m := by
      rw [get?_append_add]; rfl
    have h2 : (A ++ x :: (m :: M ++ T)).set A.length m = (A ++ [m]) ++ m :: (M ++ T) := by
      rw [set_append_length]; simp
    simp only [List.length_cons, shiftLoop, h1, h2]
    simpa using hy

theorem reduceAt_spec (P : Platform) (s : Tokens) (A B SV : List Dbl) (l r : Dbl)
    (C D SO : List Char) (op : Char)
    (hv : s.values = A ++ l :: r :: (B ++ SV)) (hvc : s.value_count = A.length + 2 + B.length)
    (ho : s.operators = C ++ op :: (D ++ SO)) (hoc : s.operator_count = C.length + 1 + D.length)
    (hAC : A.length = C.length) :
    ∃ y z, reduceAt P s A.length =
      some ⟨A ++ apply_operator P l r op :: (B ++ y :: SV), A.length + 1 + B.length,
            C ++ (D ++ z :: SO), C.length + D.length⟩ := by
  obtain ⟨y, hy⟩ := shiftLoop_spec B (A ++ [apply_operator P l r op]) SV r
  obtain ⟨z, hz⟩ := shiftLoop_spec D C SO op
  refine ⟨y, z, ?_⟩
  have g1 : s.values.get? A.length = some l := by rw [hv, get?_append_length]; rfl
  have g2 : s.values.get? (A.length + 1) = some r := by
    rw [hv, get?_append_add]; rfl
  have g3 : s.operators.get? A.length = some op := by
    rw [ho, hAC, get?_append_length]; rfl
  have e1 : s.values.set A.length (apply_operator P l r op)
      = (A ++ [apply_operator P l r op]) ++ r :: (B ++ SV) := by
    rw [hv, set_append_length]; simp
  have n1 : s.value_count - 1 - (A.length + 1) = B.length := by omega
  have n2 : s.operator_count - 1 - A.length = D.length := by omega
  have l1 : (A ++ [apply_operator P l r op]).length = A.length + 1 := by simp
  simp only [reduceAt, g1, g2, g3, e1, n1, n2]
  rw [← l1, hy, ho, hAC, hz]
  simp only [hvc, hoc]
  simp

theorem levelLoop_spec (P : Platform) (prec : Nat) (rest : List (Char × Dbl)) :
    ∀ (s : Tokens) (A SV : List Dbl) (acc : Dbl) (C SO : List Char),
      s.values = A ++ acc :: (rest.map Prod.snd ++ SV) →
      s.value_count = A.length + 1 + rest.length →
      s.operators = C ++ (rest.map Prod.fst ++ SO) →
      s.operator_count = C.length + rest.length →
      A.length = C.length →
      ∃ s1 SV1 SO1, levelLoop P prec rest.length A.length s = some s1 ∧
        s1.values = A ++ (refPass P prec acc rest).1 ::
          ((refPass P prec acc rest).2.map Prod.snd ++ SV1) ∧
        s1.value_count = A.length + 1 + (refPass P prec acc rest).2.length ∧
        s1.operators = C ++ ((refPass P prec acc rest).2.map Prod.fst ++ SO1) ∧
        s1.operator_count = C.length + (refPass P prec acc rest).2.length := by
  induction rest with
  | nil =>
    intro s A SV acc C SO hv hvc ho hoc _
    exact ⟨s, SV, SO, rfl, by simpa [refPass] using hv, by simpa [refPass] using hvc,
      by simpa [refPass] using ho, by simpa [refPass] using hoc⟩
  | cons p rest ih =>
    obtain ⟨op, v⟩ := p
    intro s A SV acc C SO hv hvc ho hoc hAC
    have hlt : A.length < s.operator_count := by rw [hoc, hAC]; simp
    have hop : s.operators.get? A.length = some op := by
      rw [ho, hAC, get?_append_length]; rfl
    by_cases hp : get_operator_precedence op = prec
    · obtain ⟨y, z, hr⟩ := reduceAt_spec P s A (rest.map Prod.snd) SV acc v C
        (rest.map Prod.fst) SO op (by simpa using hv) (by rw [hvc]; simp only [List.length_cons, List.length_map]; omega)
        (by simpa using ho) (by rw [hoc]; simp only [List.length_cons, List.length_map]; omega) hAC
      obtain ⟨s1, SV1, SO1, h1, h2, h3, h4, h5⟩ := ih
        ⟨A ++ apply_operator P acc v op :: (rest.map Prod.snd ++ y :: SV),
          A.length + 1 + (rest.map Prod.snd).length,
          C ++ (rest.map Prod.fst ++ z :: SO), C.length + (rest.map Prod.fst).length⟩
        A (y :: SV) (apply_operator P acc v op) C (z :: SO) rfl
        (by simp only [List.length_map]) rfl (by simp only [List.length_map]) hAC
      refine ⟨s1, SV1, SO1, ?_, ?_, ?_, ?_, ?_⟩
      · simp only [List.length_cons, levelLoop, hlt, if_true, hop, hp, hr]
        exact h1
      · simpa [refPass, hp] using h2
      · simpa [refPass, hp] using h3
      · simpa [refPass, hp] using h4
      · simpa [refPass, hp] using h5
    · obtain ⟨s1, SV1, SO1, h1, h2, h3, h4, h5⟩ := ih s (A ++ [acc]) SV v (C ++ [op]) SO
        (by simpa using hv) (by rw [hvc]; simp; omega) (by simpa using ho)
        (by rw [hoc]; simp; omega) (by simp [hAC])
      refine ⟨s1, SV1, SO1, ?_, ?_, ?_, ?_, ?_⟩
      · simp only [List.length_cons, levelLoop, hlt, if_true, hop, hp, if_false]
        simpa using h1
      · simpa [refPass, hp] using h2
      · rw [h3]; simp [refPass, hp]; omega
      · simpa [refPass, hp] using h4
      · rw [h5]; simp [refPass, hp]; omega

theorem reduceLevel_spec (P : Platform) (prec : Nat) (s : Tokens) (acc : Dbl)
    (rest : List (Char × Dbl)) (SV : List Dbl) (SO : List Char)
    (hv : s.values = acc :: (rest.map Prod.snd ++ SV))
    (hvc : s.value_count = 1 + rest.length)
    (ho : s.operators = rest.map Prod.fst ++ SO)
    (hoc : s.operator_count = rest.length) :
    ∃ s1 SV1 SO1, reduceLevel P prec s = some s1 ∧
      s1.values = (refPass P prec acc rest).1 ::
        ((refPass P prec acc rest).2.map Prod.snd ++ SV1) ∧
      s1.value_count = 1 + (refPass P prec acc rest).2.length ∧
      s1.operators = (refPass P prec acc rest).2.map Prod.fst ++ SO1 ∧
      s1.operator_count = (refPass P prec acc rest).2.length := by
  obtain ⟨s1, SV1, SO1, h1, h2, h3, h4, h5⟩ := levelLoop_spec P prec rest s [] SV acc [] SO
    (by simpa using hv) (by simpa using hvc) (by simpa using ho) (by simpa using hoc) rfl
  refine ⟨s1, SV1, SO1, ?_, by simpa using h2, by simpa using h3, by simpa using h4,
    by simpa using h5⟩
  rw [reduceLevel, hoc]
  simpa using h1

theorem reduce_spec (P : Platform) (v0 : Dbl) (rest : List (Char × Dbl)) :
    reduce P (v0 :: rest.map Prod.snd) (rest.map Prod.fst) = .ret (refEval P v0 rest) := by
  obtain ⟨s3, SV3, SO3, e3, a3, b3, c3, d3⟩ := reduceLevel_spec P 3
    ⟨v0 :: rest.map Prod.snd, (v0 :: rest.map Prod.snd).length, rest.map Prod.fst,
      (rest.map Prod.fst).length⟩ v0 rest [] [] (by simp) (by simp; omega) (by simp) (by simp)
  obtain ⟨s2, SV2, SO2, e2, a2, b2, c2, d2⟩ := reduceLevel_spec P 2 s3 _ _ SV3 SO3 a3 b3 c3 d3
  obtain ⟨s1, SV1, SO1, e1, a1, b1, c1, d1⟩ := reduceLevel_spec P 1 s2 _ _ SV2 SO2 a2 b2 c2 d2
  simp only [reduce, e3, Option.bind, e2, e1, a1, refEval]
  rfl

/-! ### The parenthesis pass -/

theorem countOpen_closed (expr : List Char) (m : Nat) :
    countOpen (expr ++ List.replicate m ')') = countOpen expr := by
  simp [countOpen, List.count_replicate]

/-! ### The characters of a formatted double -/

theorem digitChar_isdigit (n : Nat) : isdigit (digitChar n) = true := by
  have h : n % 10 < 10 := Nat.mod_lt _ (by decide)
  unfold digitChar
  generalize n % 10 = k at h
  interval_cases k <;> decide

theorem decDigitsAux_isdigit : ∀ (fuel n : Nat) (acc : List Char),
    (∀ c ∈ acc, isdigit c = true) → ∀ c ∈ decDigitsAux fuel n acc, isdigit c = true := by
  intro fuel
  induction fuel with
  | zero => intro n acc h c hc; exact h c hc
  | succ fuel ih =>
    intro n acc h c hc
    have hacc : ∀ d ∈ digitChar n :: acc, isdigit d = true := by
      intro d hd
      rcases List.mem_cons.mp hd with rfl | hd
      · exact digitChar_isdigit n
      · exact h d hd
    simp only [decDigitsAux] at hc
    split at hc
    · exact hacc c hc
    · exact ih _ _ hacc c hc

theorem decDigits_isdigit (n : Nat) : ∀ c ∈ decDigits n, isdigit c = true :=
  decDigitsAux_isdigit _ _ [] (by simp)

theorem fmtChar_of_isdigit {c : Char} (h : isdigit c = true) : fmtChar c = true := by
  simp [fmtChar, h]

theorem fixed6_fmtChar (micro : Nat) : ∀ c ∈ fixed6 micro, fmtChar c = true := by
  intro c hc
  simp only [fixed6, List.mem_append, List.mem_cons, List.mem_map] at hc
  rcases hc with hc | rfl | ⟨p, _, rfl⟩
  · exact fmtChar_of_isdigit (decDigits_isdigit _ c hc)
  · decide
  · exact fmtChar_of_isdigit (digitChar_isdigit _)

theorem printf_f_fmtChar (d : Dbl) : ∀ c ∈ printf_f d, fmtChar c = true := by
  intro c hc
  cases d with
  | nan => simp only [printf_f, List.mem_cons, List.mem_nil_iff, or_false] at hc; rcases hc with rfl | rfl | rfl <;> decide
  | pinf => simp only [printf_f, List.mem_cons, List.mem_nil_iff, or_false] at hc; rcases hc with rfl | rfl | rfl <;> decide
  | ninf => simp only [printf_f, List.mem_cons, List.mem_nil_iff, or_false] at hc; rcases hc with rfl | rfl | rfl | rfl <;> decide
  | negZero =>
    simp only [printf_f, List.mem_cons] at hc
    rcases hc with rfl | hc
    · decide
    · exact fixed6_fmtChar _ c hc
  | fin q =>
    simp only [printf_f] at hc
    split at hc
    · rcases List.mem_cons.mp hc with rfl | hc
      · decide
      · exact fixed6_fmtChar _ c hc
    · exact fixed6_fmtChar _ c hc

theorem snprintf_f_fmtChar (d : Dbl) : ∀ c ∈ snprintf_f d, fmtChar c = true :=
  fun c hc => printf_f_fmtChar d c (List.mem_of_mem_take hc)

theorem x_not_mem_snprintf_f (d : Dbl) : 'x' ∉ snprintf_f d :=
  fun h => absurd (snprintf_f_fmtChar d _ h) (by decide)

/-! ### Independence of `x` -/

theorem replaceAll_x_noop (rep : List Char) : ∀ s : List Char, 'x' ∉ s →
    replaceAll ['x'] rep 0 s = s := by
  intro s
  induction s with
  | nil => intro _; rfl
  | cons c t ih =>
    intro h
    have hc : ¬ 'x' = c := fun e => h (e ▸ List.mem_cons_self _ _)
    have ht : 'x' ∉ t := fun e => h (List.mem_cons_of_mem _ e)
    simp [replaceAll, startsWith, hc, ih ht]

theorem mem_replaceAll (pat rep : List Char) (c : Char) : ∀ (s : List Char) (k : Nat),
    c ∈ replaceAll pat rep k s → c ∈ s ∨ c ∈ rep := by
  intro s
  induction s with
  | nil => intro k h; simp [replaceAll] at h
  | cons d t ih =>
    intro k h
    cases k with
    | succ k =>
      simp only [replaceAll] at h
      rcases ih _ h with h1 | h1
      · exact Or.inl (List.mem_cons_of_mem _ h1)
      · exact Or.inr h1
    | zero =>
      simp only [replaceAll] at h
      split at h
      · rcases List.mem_append.mp h with h1 | h1
        · exact Or.inr h1
        · rcases ih _ h1 with h2 | h2
          · exact Or.inl (List.mem_cons_of_mem _ h2)
          · exact Or.inr h2
      · rcases List.mem_cons.mp h with h1 | h1
        · exact Or.inl (by simp [h1])
        · rcases ih _ h1 with h2 | h2
          · exact Or.inl (List.mem_cons_of_mem _ h2)
          · exact Or.inr h2

theorem mem_replaceE (c : Char) : ∀ (s : List Char) (prev : Option Char),
    c ∈ replaceE prev s → c ∈ s ∨ c ∈ E_TEXT := by
  intro s
  induction s with
  | nil => intro prev h; simp [replaceE] at h
  | cons d t ih =>
    intro prev h
    have key : c ∈ E_TEXT ++ replaceE (some '5') t → c ∈ d :: t ∨ c ∈ E_TEXT := by
      intro h1
      rcases List.mem_append.mp h1 with h2 | h2
      · exact Or.inr h2
      · rcases ih _ h2 with h3 | h3
        · exact Or.inl (List.mem_cons_of_mem _ h3)
        · exact Or.inr h3
    simp only [replaceE] at h
    split at h
    · cases prev with
      | none => exact key h
      | some p =>
        simp only at h
        split at h
        · exact Or.inl h
        · exact key h
    · rcases List.mem_cons.mp h with h1 | h1
      · exact Or.inl (by simp [h1])
      · rcases ih _ h1 with h2 | h2
        · exact Or.inl (List.mem_cons_of_mem _ h2)
        · exact Or.inr h2

theorem closeParens_mem (expr b : List Char) (h : closeParens expr = some b) (c : Char)
    (hc : c ∈ b) : c ∈ expr ∨ c = ')' := by
  simp only [closeParens, Option.map_eq_some'] at h
  obtain ⟨n, _, rfl⟩ := h
  rcases List.mem_append.mp hc with h1 | h1
  · exact Or.inl h1
  · exact Or.inr (List.eq_of_mem_replicate h1)

/-! ### The plotting loop -/

theorem pixelRow_bounds (P : Platform) (v : Viewport Dbl) (height : Int) (y : Dbl)
    (h : 0 ≤ height) : 0 ≤ pixelRow P v height y ∧ pixelRow P v height y ≤ height := by
  simp only [pixelRow]
  split_ifs <;> omega

theorem drawLoop_spec (P : Platform) (e : List Char) (v : Viewport Dbl) (width height : Int) :
    ∀ (cols : List Nat) (first : Bool) (cmds : List PathCmd),
      drawLoop P e v width height first cols = .ok cmds →
      cmds.map PathCmd.col = (cols.filter (plotted P e v width)).map Int.ofNat ∧
      (first = true → cmds = [] ∨ ∃ c r rest, cmds = PathCmd.move_to c r :: rest ∧
        ∀ d ∈ rest, d.isMove = false) ∧
      (first = false → ∀ d ∈ cmds, d.isMove = false) ∧
      (0 ≤ height → ∀ d ∈ cmds, 0 ≤ d.row ∧ d.row ≤ height) := by
  intro cols
  induction cols with
  | nil =>
    intro first cmds h
    simp only [drawLoop, Except.ok.injEq] at h
    subst h
    simp
  | cons i cols ih =>
    intro first cmds h
    simp only [drawLoop] at h
    cases hev : evaluate_expression P e (columnX P v width i) with
    | ret y =>
      simp only [hev] at h
      cases hgap : (y.isNaN || y.isInf) with
      | true =>
        simp only [hgap, if_true] at h
        have hp : plotted P e v width i = false := by simp [plotted, hev, hgap]
        obtain ⟨h1, h2, h3, h4⟩ := ih first cmds h
        exact ⟨by simp [List.filter_cons, hp, h1], h2, h3, h4⟩
      | false =>
        simp only [hgap, Bool.false_eq_true, if_false] at h
        have hp : plotted P e v width i = true := by simp [plotted, hev, hgap]
        cases hrest : drawLoop P e v width height false cols with
        | error bad => simp [hrest] at h
        | ok rest =>
          simp only [hrest, Except.ok.injEq] at h
          obtain ⟨h1, _, h3, h4⟩ := ih false rest hrest
          subst h
          refine ⟨?_, ?_, ?_, ?_⟩
          · cases first <;> simp [List.filter_cons, hp, h1, PathCmd.col]
          · intro hf
            subst hf
            exact Or.inr ⟨_, _, rest, rfl, h3 rfl⟩
          · intro hf
            subst hf
            intro d hd
            rcases List.mem_cons.mp hd with rfl | hd
            · rfl
            · exact h3 rfl d hd
          · intro hh d hd
            rcases List.mem_cons.mp hd with rfl | hd
            · cases first <;> exact pixelRow_bounds P v height y hh
            · exact h4 hh d hd
    | uninitRead => simp [hev] at h
    | nullDeref => simp [hev] at h
    | bufferOverrun => simp [hev] at h
    | outOfFuel => simp [hev] at h

theorem drawLoop_total (P : Platform) (e : List Char) (v : Viewport Dbl) (width height : Int) :
    ∀ (cols : List Nat) (first : Bool),
      (∀ i ∈ cols, ∃ y, evaluate_expression P e (columnX P v width i) = .ret y) →
      ∃ cmds, drawLoop P e v width height first cols = .ok cmds := by
  intro cols
  induction cols with
  | nil => intro first _; exact ⟨[], rfl⟩
  | cons i cols ih =>
    intro first h
    obtain ⟨y, hy⟩ := h i (List.mem_cons_self _ _)
    have hrest := fun f => ih f (fun j hj => h j (List.mem_cons_of_mem _ hj))
    simp only [drawLoop, hy]
    split
    · exact hrest first
    · obtain ⟨rest, hr⟩ := hrest false
      simp only [hr]
      exact ⟨_, rfl⟩

/-! ### Registry names and formatted text -/

theorem nameStart_of_startsWith (P : Platform) (f : Function) (hf : f ∈ functions P)
    (s : List Char) (h : startsWith f.name s = true) : nameStart s = true := by
  simp only [functions, List.mem_cons, List.mem_singleton, List.mem_nil_iff, or_false] at hf
  rcases hf with rfl | rfl | rfl | rfl | rfl | rfl | rfl | rfl | rfl | rfl | rfl <;>
  · match s, h with
    | [], h => simp [startsWith] at h
    | [_], h => simp [startsWith] at h
    | c :: d :: _, h =>
      simp only [startsWith, Bool.and_eq_true, decide_eq_true_eq] at h
      obtain ⟨h1, h2, _⟩ := h
      subst h1
      subst h2
      rfl

theorem nameStart_numChar (c : Char) (t : List Char) (h : numChar c = true) :
    nameStart (c :: t) = false := by
  cases t with
  | nil => rfl
  | cons d t =>
    have e1 : c ≠ 's' := fun e => by subst e; exact absurd h (by decide)
    have e2 : c ≠ 'c' := fun e => by subst e; exact absurd h (by decide)
    have e3 : c ≠ 't' := fun e => by subst e; exact absurd h (by decide)
    have e4 : c ≠ 'l' := fun e => by subst e; exact absurd h (by decide)
    have e5 : c ≠ 'e' := fun e => by subst e; exact absurd h (by decide)
    have e6 : c ≠ 'a' := fun e => by subst e; exact absurd h (by decide)
    simp [nameStart, e1, e2, e3, e4, e5, e6]

theorem fixed6_numChar (micro : Nat) : ∀ c ∈ fixed6 micro, numChar c = true := by
  intro c hc
  simp only [fixed6, List.mem_append, List.mem_cons, List.mem_map] at hc
  rcases hc with hc | rfl | ⟨p, _, rfl⟩
  · simp [numChar, decDigits_isdigit _ c hc]
  · decide
  · simp [numChar, digitChar_isdigit]

/-- The text of a double is `nan`, `inf`, `-inf`, or is made of digits, a
point and a sign. -/
theorem printf_f_shape (d : Dbl) :
    printf_f d = ['n', 'a', 'n'] ∨ printf_f d = ['i', 'n', 'f'] ∨
      printf_f d = ['-', 'i', 'n', 'f'] ∨ ∀ c ∈ printf_f d, numChar c = true := by
  cases d with
  | nan => exact Or.inl rfl
  | pinf => exact Or.inr (Or.inl rfl)
  | ninf => exact Or.inr (Or.inr (Or.inl rfl))
  | negZero =>
    refine Or.inr (Or.inr (Or.inr ?_))
    intro c hc
    rcases List.mem_cons.mp hc with rfl | hc
    · decide
    · exact fixed6_numChar _ c hc
  | fin q =>
    refine Or.inr (Or.inr (Or.inr ?_))
    intro c hc
    simp only [printf_f] at hc
    split at hc
    · rcases List.mem_cons.mp hc with rfl | hc
      · decide
      · exact fixed6_numChar _ c hc
    · exact fixed6_numChar _ c hc

theorem snprintf_f_shape (d : Dbl) :
    snprintf_f d = ['n', 'a', 'n'] ∨ snprintf_f d = ['i', 'n', 'f'] ∨
      snprintf_f d = ['-', 'i', 'n', 'f'] ∨ ∀ c ∈ snprintf_f d, numChar c = true := by
  rcases printf_f_shape d with h | h | h | h
  · exact Or.inl (by simp [snprintf_f, h])
  · exact Or.inr (Or.inl (by simp [snprintf_f, h]))
  · exact Or.inr (Or.inr (Or.inl (by simp [snprintf_f, h])))
  · exact Or.inr (Or.inr (Or.inr (fun c hc => h c (List.mem_of_mem_take hc))))

/-- No name of the registry starts inside the text of a double, whatever
follows the text. -/
theorem nameStart_snprintf_f (d : Dbl) (tail : List Char) (k : Nat)
    (hk : k < (snprintf_f d).length) :
    nameStart ((snprintf_f d).drop k ++ tail) = false := by
  rcases snprintf_f_shape d with h | h | h | h
  · rw [h] at hk ⊢
    simp only [List.length_cons, List.length_nil] at hk
    interval_cases k <;> cases tail <;> rfl
  · rw [h] at hk ⊢
    simp only [List.length_cons, List.length_nil] at hk
    interval_cases k <;> cases tail <;> rfl
  · rw [h] at hk ⊢
    simp only [List.length_cons, List.length_nil] at hk
    interval_cases k <;> cases tail <;> rfl
  · cases hd : (snprintf_f d).drop k with
    | nil =>
      have := List.drop_eq_nil_iff.mp hd
      omega
    | cons c t =>
      have hc : c ∈ snprintf_f d := List.mem_of_mem_drop (by rw [hd]; exact List.mem_cons_self _ _)
      exact nameStart_numChar c _ (h c hc)

theorem snprintf_f_ne_nil (d : Dbl) : snprintf_f d ≠ [] := by
  cases d with
  | nan => simp [snprintf_f, printf_f]
  | pinf => simp [snprintf_f, printf_f]
  | ninf => simp [snprintf_f, printf_f]
  | negZero => simp [snprintf_f, printf_f]
  | fin q =>
    simp only [snprintf_f, printf_f]
    split
    · simp
    · cases h : decDigits (roundHalfEven (q.num.natAbs * 1000000) q.den / 1000000) <;>
        simp [fixed6, h]

theorem open_not_mem_snprintf_f (d : Dbl) : '(' ∉ snprintf_f d :=
  fun h => absurd (snprintf_f_fmtChar d _ h) (by decide)

theorem close_not_mem_snprintf_f (d : Dbl) : ')' ∉ snprintf_f d :=
  fun h => absurd (snprintf_f_fmtChar d _ h) (by decide)

/-! ### The model's recursion bounds are never reached -/

theorem drop_drop_add {α : Type} (s : List α) (a b : Nat) :
    (s.drop a).drop b = s.drop (a + b) := by
  induction a generalizing s with
  | zero => simp
  | succ a ih =>
    cases s with
    | nil => simp
    | cons x t =>
      have e : a + 1 + b = (a + b) + 1 := by omega
      rw [e]
      simp [ih t]

theorem strchr_some (c : Char) : ∀ (s : List Char) (o : Nat), strchr c s = some o →
    s.drop o = c :: s.drop (o + 1) := by
  intro s
  induction s with
  | nil => intro o h; simp [strchr] at h
  | cons d t ih =>
    intro o h
    by_cases hd : d = c
    · simp only [strchr, hd, if_true, Option.some.injEq] at h
      subst h
      simp [hd]
    · simp only [strchr, hd, if_false, Option.map_eq_some'] at h
      obtain ⟨k, hk, rfl⟩ := h
      simpa using ih k hk

theorem strstr_some (pat : List Char) : ∀ (s : List Char) (k : Nat), strstr pat s = some k →
    startsWith pat (s.drop k) = true := by
  intro s
  induction s with
  | nil =>
    intro k h
    cases pat with
    | nil => rfl
    | cons p ps => simp [strstr] at h
  | cons d t ih =>
    intro k h
    by_cases hd : startsWith pat (d :: t) = true
    · simp only [strstr, hd, if_true, Option.some.injEq] at h
      subst h
      simpa using hd
    · simp only [strstr, hd, Bool.false_eq_true, if_false, Option.map_eq_some'] at h
      obtain ⟨j, hj, rfl⟩ := h
      simpa using ih j hj

theorem occurrences_tail_le (pat : List Char) (c : Char) (t : List Char) :
    occurrences pat t ≤ occurrences pat (c :: t) := by
  simp only [occurrences]
  omega

theorem occurrences_drop_le (pat : List Char) : ∀ (k : Nat) (s : List Char),
    occurrences pat (s.drop k) ≤ occurrences pat s := by
  intro k
  induction k with
  | zero => intro s; simp
  | succ k ih =>
    intro s
    cases s with
    | nil => simp
    | cons c t =>
      simp only [List.drop_succ_cons]
      exact Nat.le_trans (ih t) (occurrences_tail_le pat c t)

theorem occurrences_le_length (pat : List Char) : ∀ s : List Char,
    occurrences pat s ≤ s.length := by
  intro s
  induction s with
  | nil => simp [occurrences]
  | cons c t ih =>
    simp only [occurrences, List.length_cons]
    split <;> omega

theorem occurrences_append_safe (pat : List Char) (tail : List Char) : ∀ U : List Char,
    (∀ k, k < U.length → startsWith pat (U.drop k ++ tail) = false) →
    occurrences pat (U ++ tail) = occurrences pat tail := by
  intro U
  induction U with
  | nil => intro _; rfl
  | cons c U ih =>
    intro h
    have h0 := h 0 (by simp)
    simp only [List.drop_zero, List.cons_append] at h0
    have ht : ∀ k, k < U.length → startsWith pat (U.drop k ++ tail) = false := by
      intro k hk
      have := h (k + 1) (by simp; omega)
      simpa using this
    have e : occurrences pat (c :: U ++ tail) =
        (if startsWith pat (c :: (U ++ tail)) then 1 else 0) + occurrences pat (U ++ tail) := rfl
    rw [e, h0, ih ht]
    simp

theorem countOpen_take_le (s : List Char) (k : Nat) : countOpen (s.take k) ≤ countOpen s :=
  (List.take_sublist k s).count_le _

theorem countOpen_drop_le (s : List Char) (k : Nat) : countOpen (s.drop k) ≤ countOpen s :=
  (List.drop_sublist k s).count_le _

theorem countOpen_append (s t : List Char) : countOpen (s ++ t) = countOpen s + countOpen t := by
  simp [countOpen]

theorem countOpen_snprintf_f (d : Dbl) : countOpen (snprintf_f d) = 0 := by
  simp only [countOpen]
  exact List.count_eq_zero.mpr (open_not_mem_snprintf_f d)

theorem funcLoop_fuel (P : Platform) (f : Function) (hf : f ∈ functions P)
    (recur : List Char → Outcome) (n : Nat)
    (hrec : ∀ a, countOpen a < n → recur a ≠ .outOfFuel) :
    ∀ (fuel : Nat) (buf : List Char) (pos : Nat),
      startsWith f.name (buf.drop pos) = true →
      occurrences f.name (buf.drop pos) ≤ fuel →
      countOpen buf ≤ n →
      funcLoop f recur fuel buf pos ≠ .error .outOfFuel ∧
        ∀ b, funcLoop f recur fuel buf pos = .ok b → countOpen b ≤ n := by
  intro fuel
  induction fuel with
  | zero =>
    intro buf pos hs hocc _
    exfalso
    have hn := nameStart_of_startsWith P f hf _ hs
    cases hd : buf.drop pos with
    | nil => rw [hd] at hn; simp [nameStart] at hn
    | cons c t =>
      rw [hd] at hs hocc
      simp [occurrences, hs] at hocc
  | succ fuel ih =>
    intro buf pos hs hocc hcnt
    -- the text at `pos` starts with the name, so it is not empty
    obtain ⟨c0, t0, hd⟩ : ∃ c0 t0, buf.drop pos = c0 :: t0 := by
      have hn := nameStart_of_startsWith P f hf _ hs
      cases hd : buf.drop pos with
      | nil => rw [hd] at hn; simp [nameStart] at hn
      | cons c t => exact ⟨c, t, rfl⟩
    have hpos : pos < buf.length := by
      by_contra hge
      have : buf.drop pos = [] := List.drop_eq_nil_iff.mpr (by omega)
      rw [this] at hd
      cases hd
    have hocc1 : occurrences f.name t0 ≤ fuel := by
      rw [hd] at hs hocc
      simp only [occurrences, hs, if_true] at hocc
      omega
    have hdrop1 : buf.drop (pos + 1) = t0 := by
      rw [← drop_drop_add, hd]; rfl
    -- what the rest of a turn does with the buffer `buf1` it is left with
    have finish : ∀ buf1 : List Char, countOpen buf1 ≤ n →
        occurrences f.name (buf1.drop (pos + 1)) ≤ fuel →
        (match strstr f.name (buf1.drop (pos + 1)) with
          | none => Except.ok buf1
          | some k => funcLoop f recur fuel buf1 (pos + 1 + k)) ≠ .error .outOfFuel ∧
        ∀ b, (match strstr f.name (buf1.drop (pos + 1)) with
          | none => Except.ok buf1
          | some k => funcLoop f recur fuel buf1 (pos + 1 + k)) = .ok b → countOpen b ≤ n := by
      intro buf1 hc1 ho1
      cases hk : strstr f.name (buf1.drop (pos + 1)) with
      | none =>
        refine ⟨by simp, ?_⟩
        intro b hb
        simp only [Except.ok.injEq] at hb
        subst hb
        exact hc1
      | some k =>
        have hs1 := strstr_some _ _ _ hk
        rw [drop_drop_add] at hs1
        have ho2 : occurrences f.name (buf1.drop (pos + 1 + k)) ≤ fuel := by
          have := occurrences_drop_le f.name k (buf1.drop (pos + 1))
          rw [drop_drop_add] at this
          omega
        exact ih buf1 (pos + 1 + k) hs1 ho2 hc1
    simp only [funcLoop]
    cases ho : strchr '(' (buf.drop pos) with
    | none => simp
    | some o =>
      simp only
      cases hc : strchr ')' ((buf.drop pos).drop o) with
      | none =>
        simp only
        exact finish buf hcnt (by rw [hdrop1]; exact hocc1)
      | some c =>
        simp only
        have hopen := strchr_some _ _ _ ho
        have harg : countOpen (((buf.drop pos).drop (o + 1)).take (c - 1)) < n := by
          have h1 := countOpen_take_le ((buf.drop pos).drop (o + 1)) (c - 1)
          have h2 : countOpen ((buf.drop pos).drop o) =
              countOpen ((buf.drop pos).drop (o + 1)) + 1 := by
            rw [hopen]; simp [countOpen]
          have h3 := countOpen_drop_le (buf.drop pos) o
          have h4 := countOpen_drop_le buf pos
          omega
        have hne := hrec _ harg
        cases hrc : recur (((buf.drop pos).drop (o + 1)).take (c - 1)) with
        | ret arg =>
          simp only
          have hc1 : countOpen (buf.take pos ++ snprintf_f (f.func arg) ++
              (buf.drop pos).drop (o + c + 1)) ≤ n := by
            rw [countOpen_append, countOpen_append, countOpen_snprintf_f]
            have h1 := countOpen_drop_le (buf.drop pos) (o + c + 1)
            have h2 : countOpen buf = countOpen (buf.take pos) + countOpen (buf.drop pos) := by
              rw [← countOpen_append, List.take_append_drop]
            omega
          have ho1 : occurrences f.name ((buf.take pos ++ snprintf_f (f.func arg) ++
              (buf.drop pos).drop (o + c + 1)).drop (pos + 1)) ≤ fuel := by
            have hlen : (buf.take pos).length = pos := by
              rw [List.length_take]; omega
            obtain ⟨a, T, hT⟩ : ∃ a T, snprintf_f (f.func arg) = a :: T := by
              cases h : snprintf_f (f.func arg) with
              | nil => exact absurd h (snprintf_f_ne_nil _)
              | cons a T => exact ⟨a, T, rfl⟩
            have e1 : (buf.take pos ++ snprintf_f (f.func arg) ++
                (buf.drop pos).drop (o + c + 1)).drop (pos + 1)
                = T ++ (buf.drop pos).drop (o + c + 1) := by
              rw [List.append_assoc, ← drop_drop_add, List.drop_left' hlen, hT]
              rfl
            rw [e1, occurrences_append_safe]
            · have h1 : (buf.drop pos).drop (o + c + 1) = t0.drop (o + c) := by
                rw [hd]; rfl
              rw [h1]
              exact Nat.le_trans (occurrences_drop_le _ _ _) hocc1
            · intro k hk
              have h1 := nameStart_snprintf_f (f.func arg) ((buf.drop pos).drop (o + c + 1))
                (k + 1) (by rw [hT]; simp; omega)
              rw [hT] at h1
              simp only [List.drop_succ_cons] at h1
              cases hsw : startsWith f.name (T.drop k ++ (buf.drop pos).drop (o + c + 1)) with
              | false => rfl
              | true =>
                rw [nameStart_of_startsWith P f hf _ hsw] at h1
                cases h1
          exact finish _ hc1 ho1
        | uninitRead => simp
        | nullDeref => simp
        | bufferOverrun => simp
        | outOfFuel => exact absurd hrc hne

theorem countOpen_replaceAll (pat rep : List Char) (hrep : countOpen rep = 0) :
    ∀ (s : List Char) (k : Nat), countOpen (replaceAll pat rep k s) ≤ countOpen s := by
  intro s
  induction s with
  | nil => intro k; simp [replaceAll]
  | cons d t ih =>
    intro k
    have hle : countOpen t ≤ countOpen (d :: t) := countOpen_drop_le (d :: t) 1
    cases k with
    | succ k =>
      simp only [replaceAll]
      exact Nat.le_trans (ih k) hle
    | zero =>
      simp only [replaceAll]
      split
      · rw [countOpen_append, hrep]
        have := ih (pat.length - 1)
        omega
      · have := ih 0
        simp only [countOpen, List.count_cons] at this ⊢
        omega

theorem countOpen_replaceE : ∀ (s : List Char) (prev : Option Char),
    countOpen (replaceE prev s) ≤ countOpen s := by
  intro s
  induction s with
  | nil => intro prev; simp [replaceE]
  | cons d t ih =>
    intro prev
    have hle : countOpen t ≤ countOpen (d :: t) := countOpen_drop_le (d :: t) 1
    have key : countOpen (E_TEXT ++ replaceE (some '5') t) ≤ countOpen (d :: t) := by
      rw [countOpen_append]
      have h1 : countOpen E_TEXT = 0 := by decide
      have := ih (some '5')
      omega
    simp only [replaceE]
    split
    · cases prev with
      | none => exact key
      | some p =>
        simp only
        split
        · exact Nat.le_refl _
        · exact key
    · have := ih (some d)
      simp only [countOpen, List.count_cons] at this ⊢
      omega

theorem countOpen_substitute (expr : List Char) (x : Dbl) (buf : List Char)
    (h : substitute expr x = some buf) : countOpen buf ≤ countOpen expr := by
  simp only [substitute, Option.map_eq_some'] at h
  obtain ⟨b0, hb0, rfl⟩ := h
  simp only [closeParens, Option.map_eq_some'] at hb0
  obtain ⟨m, _, rfl⟩ := hb0
  have h1 := countOpen_replaceE
    (replaceAll ['t', 'a', 'u'] TAU_TEXT 0 (replaceAll ['p', 'i'] PI_TEXT 0
      (replaceAll ['x'] (snprintf_f x) 0 (expr ++ List.replicate m ')')))) none
  have h2 := countOpen_replaceAll ['t', 'a', 'u'] TAU_TEXT (by decide)
    (replaceAll ['p', 'i'] PI_TEXT 0
      (replaceAll ['x'] (snprintf_f x) 0 (expr ++ List.replicate m ')'))) 0
  have h3 := countOpen_replaceAll ['p', 'i'] PI_TEXT (by decide)
    (replaceAll ['x'] (snprintf_f x) 0 (expr ++ List.replicate m ')')) 0
  have h4 := countOpen_replaceAll ['x'] (snprintf_f x) (countOpen_snprintf_f x)
    (expr ++ List.replicate m ')') 0
  have h5 := countOpen_closed expr m
  omega

theorem funcPass_fuel (P : Platform) (recur : List Char → Outcome) (n : Nat)
    (hrec : ∀ a, countOpen a < n → recur a ≠ .outOfFuel) :
    ∀ (fs : List Function), (∀ f ∈ fs, f ∈ functions P) → ∀ buf : List Char,
      countOpen buf ≤ n → funcPass recur fs buf ≠ .error .outOfFuel := by
  intro fs
  induction fs with
  | nil => intro _ buf _; simp [funcPass]
  | cons f fs ih =>
    intro hfs buf hcnt
    have hf := hfs f (List.mem_cons_self _ _)
    have key : funcEntry f recur buf ≠ .error .outOfFuel ∧
        ∀ b, funcEntry f recur buf = .ok b → countOpen b ≤ n := by
      unfold funcEntry
      cases hk : strstr f.name buf with
      | none =>
        refine ⟨by simp, ?_⟩
        intro b hb
        simp only [Except.ok.injEq] at hb
        subst hb
        exact hcnt
      | some pos =>
        simp only
        have h1 := occurrences_le_length f.name (buf.drop pos)
        have h2 : (buf.drop pos).length ≤ buf.length := by simp
        exact funcLoop_fuel P f hf recur n hrec _ buf pos (strstr_some _ _ _ hk)
          (by omega) hcnt
    simp only [funcPass]
    cases he : funcEntry f recur buf with
    | error bad =>
      simp only
      intro hbad
      apply key.1
      rw [he, hbad]
    | ok b =>
      exact ih (fun g hg => hfs g (List.mem_cons_of_mem _ hg)) b (key.2 b he)

theorem evalArith_ne_outOfFuel (P : Platform) (buf : List Char) :
    evalArith P buf ≠ .outOfFuel := by
  unfold evalArith
  split
  · simp
  · unfold reduce
    split
    · simp
    · split <;> simp

theorem evalFuel_ne_outOfFuel (P : Platform) (x : Dbl) : ∀ (fuel : Nat) (expr : List Char),
    countOpen expr < fuel → evalFuel P fuel expr x ≠ .outOfFuel := by
  intro fuel
  induction fuel with
  | zero => intro expr h; omega
  | succ fuel ih =>
    intro expr h
    simp only [evalFuel]
    cases hs : substitute expr x with
    | none => simp
    | some buf =>
      simp only
      have hb := countOpen_substitute expr x buf hs
      have hp := funcPass_fuel P (fun arg => evalFuel P fuel arg x) fuel
        (fun a ha => ih a ha) (functions P) (fun f hf => hf) buf (by omega)
      cases hfp : funcPass (fun arg => evalFuel P fuel arg x) (functions P) buf with
      | error bad =>
        simp only
        intro hbad
        apply hp
        rw [hfp, hbad]
      | ok b => exact evalArith_ne_outOfFuel P b

/-- The bound of the model's recursion is never reached: a call of
`evaluate_expression` returns a double or runs into undefined behaviour. -/
theorem evaluate_expression_ne_outOfFuel (P : Platform) (expr : List Char) (x : Dbl) :
    evaluate_expression P expr x ≠ .outOfFuel :=
  evalFuel_ne_outOfFuel P x _ expr (Nat.lt_succ_self _)

/-! ### `strtod` on the text of a double -/

theorem isdigit_cases (c : Char) (h : isdigit c = true) :
    c = '0' ∨ c = '1' ∨ c = '2' ∨ c = '3' ∨ c = '4' ∨ c = '5' ∨ c = '6' ∨ c = '7' ∨
      c = '8' ∨ c = '9' := by
  simp only [isdigit, Bool.and_eq_true, decide_eq_true_eq] at h
  obtain ⟨h1, h2⟩ := h
  have h1n : 48 ≤ c.toNat := h1
  have h2n : c.toNat ≤ 57 := h2
  have hc : c = Char.ofNat c.toNat := (Char.ofNat_toNat c).symm
  generalize c.toNat = n at h1n h2n hc
  subst hc
  interval_cases n <;> decide

theorem StopTail.not_digit {tail : List Char} (h : StopTail tail) :
    tail = [] ∨ ∃ c r, tail = c :: r ∧ isdigit c = false := by
  rcases h with h | ⟨r, h⟩
  · exact Or.inl h
  · exact Or.inr ⟨')', r, h, by decide⟩

theorem takeDigits_digits (E tail : List Char) (hE : ∀ c ∈ E, isdigit c = true)
    (ht : tail = [] ∨ ∃ c r, tail = c :: r ∧ isdigit c = false) :
    ∀ acc n : Nat, ∃ m, takeDigits 10 acc n (E ++ tail) = (m, n + E.length, tail) := by
  induction E with
  | nil =>
    intro acc n
    rcases ht with h | ⟨c, r, h, hc⟩
    · subst h; exact ⟨acc, rfl⟩
    · subst h; exact ⟨acc, by simp [takeDigits, hc]⟩
  | cons d E ih =>
    intro acc n
    have hd : isdigit d = true := hE d (List.mem_cons_self _ _)
    obtain ⟨m, hm⟩ := ih (fun c hc => hE c (List.mem_cons_of_mem _ hc))
      (acc * 10 + digitVal d) (n + 1)
    refine ⟨m, ?_⟩
    have e : takeDigits 10 acc n (d :: (E ++ tail)) =
        takeDigits 10 (acc * 10 + digitVal d) (n + 1) (E ++ tail) := by
      simp [takeDigits, hd]
    rw [List.cons_append, e, hm, List.length_cons]
    congr 2
    omega

theorem scanExponent_stop (marker : Char) (hm : marker ≠ ')') (tail : List Char)
    (h : StopTail tail) : scanExponent marker tail = (0, 0) := by
  rcases h with h | ⟨r, h⟩
  · subst h; rfl
  · subst h
    have : ¬ ')' = marker := fun h1 => hm h1.symm
    simp [scanExponent, this]

theorem scanNumber_numText (P : Platform) (U tail : List Char) (hU : NumText U)
    (ht : StopTail tail) : ∃ v, scanNumber P 10 (U ++ tail) = some (v, U.length) := by
  obtain ⟨F1, F2, hne, h1, h2, hU⟩ := hU
  have hlen : 0 < F1.length := List.length_pos.mpr hne
  have hexp : scanExponent 'e' tail = (0, 0) := scanExponent_stop 'e' (by decide) tail ht
  rcases hU with hU | hU
  · rw [hU]
    obtain ⟨m, hm⟩ := takeDigits_digits F1 tail h1 ht.not_digit 0 0
    have hz : ¬ (0 + F1.length + 0 = 0) := by omega
    rcases ht with rfl | ⟨r, rfl⟩
    · refine ⟨magnitude P m 10 (0 - ((0 : Nat) : Int)), ?_⟩
      simp only [scanNumber, hm, hz, if_false, hexp]
      simp [hexp]
    · refine ⟨magnitude P m 10 (0 - ((0 : Nat) : Int)), ?_⟩
      simp only [scanNumber, hm, hz, if_false, hexp]
      simp [hexp, hne]
  · rw [hU]
    obtain ⟨m, hm⟩ := takeDigits_digits F1 ('.' :: (F2 ++ tail)) h1
      (Or.inr ⟨'.', _, rfl, by decide⟩) 0 0
    obtain ⟨m2, hm2⟩ := takeDigits_digits F2 tail h2 ht.not_digit m 0
    have hz : ¬ (0 + F1.length + (0 + F2.length) = 0) := by omega
    refine ⟨magnitude P m2 10 (0 - ((0 + F2.length : Nat) : Int)), ?_⟩
    rw [List.append_assoc, List.cons_append]
    simp only [scanNumber, hm, hm2, hz, if_false, hexp]
    simp [hexp, hne]
    ring

theorem scanUnsigned_digit_head (P : Platform) (d0 : Char) (rest : List Char)
    (hd : isdigit d0 = true)
    (hrest : rest = [] ∨ ∃ c r, rest = c :: r ∧ (isdigit c = true ∨ c = '.' ∨ c = ')')) :
    scanUnsigned P (d0 :: rest) = scanNumber P 10 (d0 :: rest) := by
  rcases hrest with rfl | ⟨c, r, rfl, hc⟩
  · rcases isdigit_cases d0 hd with h | h | h | h | h | h | h | h | h | h <;> subst h <;> rfl
  · rcases hc with hc | hc | hc
    · rcases isdigit_cases d0 hd with h | h | h | h | h | h | h | h | h | h <;> subst h <;>
        rcases isdigit_cases c hc with h | h | h | h | h | h | h | h | h | h <;> subst h <;> rfl
    · subst hc
      rcases isdigit_cases d0 hd with h | h | h | h | h | h | h | h | h | h <;> subst h <;> rfl
    · subst hc
      rcases isdigit_cases d0 hd with h | h | h | h | h | h | h | h | h | h <;> subst h <;> rfl

theorem scanUnsigned_numText (P : Platform) (U tail : List Char) (hU : NumText U)
    (ht : StopTail tail) : ∃ v, scanUnsigned P (U ++ tail) = some (v, U.length) := by
  obtain ⟨v, hv⟩ := scanNumber_numText P U tail hU ht
  refine ⟨v, ?_⟩
  rw [← hv]
  obtain ⟨F1, F2, hne, h1, h2, hU⟩ := hU
  have htail : tail = [] ∨ ∃ c r, tail = c :: r ∧ (isdigit c = true ∨ c = '.' ∨ c = ')') := by
    rcases ht with h | ⟨r, h⟩
    · exact Or.inl h
    · exact Or.inr ⟨')', r, h, Or.inr (Or.inr rfl)⟩
  cases F1 with
  | nil => exact absurd rfl hne
  | cons d0 F1 =>
    have hd0 : isdigit d0 = true := h1 d0 (List.mem_cons_self _ _)
    have key : ∀ X : List Char,
        (X = [] ∨ ∃ c r, X = c :: r ∧ (isdigit c = true ∨ c = '.' ∨ c = ')')) →
        (F1 ++ X = [] ∨ ∃ c r, F1 ++ X = c :: r ∧ (isdigit c = true ∨ c = '.' ∨ c = ')')) := by
      intro X hX
      cases F1 with
      | nil => simpa using hX
      | cons e F1 =>
        exact Or.inr ⟨e, F1 ++ X, rfl,
          Or.inl (h1 e (List.mem_cons_of_mem _ (List.mem_cons_self _ _)))⟩
    rcases hU with hU | hU
    · rw [hU, List.cons_append]
      exact scanUnsigned_digit_head P d0 _ hd0 (key tail htail)
    · rw [hU, List.append_assoc, List.cons_append]
      exact scanUnsigned_digit_head P d0 _ hd0
        (key _ (Or.inr ⟨'.', _, rfl, Or.inr (Or.inl rfl)⟩))

theorem decDigitsAux_ne_nil : ∀ (fuel n : Nat) (acc : List Char), acc ≠ [] →
    decDigitsAux fuel n acc ≠ [] := by
  intro fuel
  induction fuel with
  | zero => intro n acc h; exact h
  | succ fuel ih =>
    intro n acc _
    simp only [decDigitsAux]
    split
    · simp
    · exact ih _ _ (by simp)

theorem decDigits_ne_nil (n : Nat) : decDigits n ≠ [] := by
  simp only [decDigits, decDigitsAux]
  split
  · simp
  · exact decDigitsAux_ne_nil _ _ _ (by simp)

theorem fixed6_take_numText (micro k : Nat) (hk : 1 ≤ k) : NumText ((fixed6 micro).take k) := by
  have hE1 := decDigits_isdigit (micro / 1000000)
  have hne := decDigits_ne_nil (micro / 1000000)
  have hlen : 0 < (decDigits (micro / 1000000)).length := List.length_pos.mpr hne
  have hE2 : ∀ c ∈ [100000, 10000, 1000, 100, 10, 1].map (fun p => digitChar (micro / p)),
      isdigit c = true := by
    intro c hc
    obtain ⟨p, _, rfl⟩ := List.mem_map.mp hc
    exact digitChar_isdigit _
  simp only [fixed6, List.take_append_eq_append_take]
  by_cases hle : k ≤ (decDigits (micro / 1000000)).length
  · refine ⟨(decDigits (micro / 1000000)).take k, [], ?_, ?_, by simp, Or.inl ?_⟩
    · intro h
      have := congrArg List.length h
      simp only [List.length_take, List.length_nil] at this
      omega
    · exact fun c hc => hE1 c (List.mem_of_mem_take hc)
    · have : k - (decDigits (micro / 1000000)).length = 0 := by omega
      rw [this]
      simp
  · obtain ⟨j, hj⟩ : ∃ j, k - (decDigits (micro / 1000000)).length = j + 1 :=
      ⟨k - (decDigits (micro / 1000000)).length - 1, by omega⟩
    refine ⟨decDigits (micro / 1000000),
      ([100000, 10000, 1000, 100, 10, 1].map (fun p => digitChar (micro / p))).take j,
      hne, hE1, fun c hc => hE2 c (List.mem_of_mem_take hc), Or.inr ?_⟩
    rw [hj, List.take_of_length_le (by omega)]
    rfl

/-- The text of a double is `nan`, `inf`, `-inf`, an unsigned numeric text, or
`-` and an unsigned numeric text. -/
theorem snprintf_f_cases (d : Dbl) :
    snprintf_f d = ['n', 'a', 'n'] ∨ snprintf_f d = ['i', 'n', 'f'] ∨
      snprintf_f d = ['-', 'i', 'n', 'f'] ∨ NumText (snprintf_f d) ∨
      ∃ U, snprintf_f d = '-' :: U ∧ NumText U := by
  cases d with
  | nan => exact Or.inl rfl
  | pinf => exact Or.inr (Or.inl rfl)
  | ninf => exact Or.inr (Or.inr (Or.inl rfl))
  | negZero =>
    exact Or.inr (Or.inr (Or.inr (Or.inr ⟨(fixed6 0).take 30, rfl,
      fixed6_take_numText 0 30 (by decide)⟩)))
  | fin q =>
    by_cases hq : q < 0
    · refine Or.inr (Or.inr (Or.inr (Or.inr
        ⟨(fixed6 (roundHalfEven (q.num.natAbs * 1000000) q.den)).take 30, ?_,
          fixed6_take_numText _ 30 (by decide)⟩)))
      simp [snprintf_f, printf_f, hq]
    · refine Or.inr (Or.inr (Or.inr (Or.inl ?_)))
      simp only [snprintf_f, printf_f, hq, if_false]
      exact fixed6_take_numText _ 31 (by decide)

theorem strtod_digit_head (P : Platform) (d0 : Char) (rest : List Char)
    (hd : isdigit d0 = true) :
    strtod P (d0 :: rest) =
      match scanUnsigned P (d0 :: rest) with
      | some (v, n) => (v, 0 + n)
      | none => (.fin 0, 0) := by
  rcases isdigit_cases d0 hd with h | h | h | h | h | h | h | h | h | h <;> subst h <;> rfl

theorem strtod_numText (P : Platform) (U tail : List Char) (hU : NumText U)
    (ht : StopTail tail) : ∃ v, strtod P (U ++ tail) = (v, U.length) := by
  obtain ⟨v, hv⟩ := scanUnsigned_numText P U tail hU ht
  refine ⟨v, ?_⟩
  obtain ⟨F1, F2, hne, h1, _, hU⟩ := hU
  cases F1 with
  | nil => exact absurd rfl hne
  | cons d0 F1 =>
    have hd0 : isdigit d0 = true := h1 d0 (List.mem_cons_self _ _)
    have hcons : ∃ rest, U ++ tail = d0 :: rest := by
      rcases hU with hU | hU <;> exact ⟨_, by rw [hU]; rfl⟩
    obtain ⟨rest, hrest⟩ := hcons
    rw [hrest] at hv ⊢
    rw [strtod_digit_head P d0 rest hd0, hv]
    simp

/-! ### The tokenizer on the text of a double -/

theorem tokenize_skip (P : Platform) (e : Bool) (vals : List Dbl) (ops : List Char)
    (B : List Char) : ∀ (A : List Char) (prev : Option Char),
    ∃ prev1, tokenize P A.length prev e vals ops (A ++ B) = tokenize P 0 prev1 e vals ops B := by
  intro A
  induction A with
  | nil => intro prev; exact ⟨prev, rfl⟩
  | cons a A ih =>
    intro prev
    obtain ⟨prev1, h⟩ := ih (some a)
    exact ⟨prev1, by rw [← h]; rfl⟩

theorem tokenize_digit_head (P : Platform) (d0 : Char) (rest : List Char)
    (hd : isdigit d0 = true) :
    tokenize P 0 none false [] [] (d0 :: rest) =
      match (if (strtod P (d0 :: rest)).2 = 0 then none
             else some ((strtod P (d0 :: rest)).1, (strtod P (d0 :: rest)).2 - 1)) with
      | none => none
      | some (v, n) => tokenize P n (some d0) true [v] [] rest := by
  rcases isdigit_cases d0 hd with h | h | h | h | h | h | h | h | h | h <;> subst h <;> rfl

/-- The tokenizer reads the text of a double as one value and goes on with
what follows the text. -/
theorem tokenize_text (P : Platform) (d : Dbl) (tail : List Char) (ht : StopTail tail) :
    ∃ v prev, tokenize P 0 none false [] [] (snprintf_f d ++ tail) =
      tokenize P 0 prev true [v] [] tail := by
  rcases snprintf_f_cases d with h | h | h | h | ⟨U, h, hU⟩
  · rw [h]
    rcases ht with rfl | ⟨r, rfl⟩
    · exact ⟨.nan, some 'n', rfl⟩
    · exact ⟨.nan, some 'n', rfl⟩
  · rw [h]
    rcases ht with rfl | ⟨r, rfl⟩
    · exact ⟨.pinf, some 'f', rfl⟩
    · exact ⟨.pinf, some 'f', rfl⟩
  · rw [h]
    rcases ht with rfl | ⟨r, rfl⟩
    · exact ⟨.ninf, some 'f', rfl⟩
    · exact ⟨.ninf, some 'f', rfl⟩
  · obtain ⟨v, hv⟩ := strtod_numText P _ tail h ht
    obtain ⟨F1, F2, hne, h1, _, hT⟩ := h
    cases F1 with
    | nil => exact absurd rfl hne
    | cons d0 F1 =>
      have hd0 : isdigit d0 = true := h1 d0 (List.mem_cons_self _ _)
      obtain ⟨T1, hT1⟩ : ∃ T1, snprintf_f d = d0 :: T1 := by
        rcases hT with hT | hT
        · exact ⟨_, hT⟩
        · exact ⟨F1 ++ '.' :: F2, hT⟩
      rw [hT1] at hv ⊢
      obtain ⟨prev1, hs⟩ := tokenize_skip P true [v] [] tail T1 (some d0)
      refine ⟨v, prev1, ?_⟩
      rw [List.cons_append] at hv ⊢
      rw [tokenize_digit_head P d0 _ hd0, hv]
      simpa using hs
  · obtain ⟨v, hv⟩ := strtod_numText P U tail hU ht
    obtain ⟨prev1, hs⟩ := tokenize_skip P true [v.neg] [] tail U (some '-')
    refine ⟨v.neg, prev1, ?_⟩
    rw [h, ← hs]
    have e : tokenize P 0 none false [] [] ('-' :: (U ++ tail)) =
        tokenize P (strtod P (U ++ tail)).2 (some '-') true [(strtod P (U ++ tail)).1.neg] []
          (U ++ tail) := rfl
    rw [List.cons_append, e, hv]

/-- The text of a double alone evaluates to one value. -/
theorem evalArith_text (P : Platform) (d : Dbl) : ∃ v, evalArith P (snprintf_f d) = .ret v := by
  obtain ⟨v, prev, h⟩ := tokenize_text P d [] (Or.inl rfl)
  refine ⟨v, ?_⟩
  rw [List.append_nil] at h
  simp only [evalArith, h]
  rfl

/-- The text of a double followed by a `)` evaluates to NaN: the tokenizer
puts an implicit `*` before the `)` and then fails to read a value there. -/
theorem evalArith_text_close (P : Platform) (d : Dbl) (r : List Char) :
    evalArith P (snprintf_f d ++ ')' :: r) = .ret .nan := by
  obtain ⟨v, prev, h⟩ := tokenize_text P d (')' :: r) (Or.inr ⟨r, rfl⟩)
  simp only [evalArith, h]
  rfl

/-! ### The function pass on buffers without names, and one call -/

theorem strstr_none_of_nameStart (P : Platform) (f : Function) (hf : f ∈ functions P) :
    ∀ s : List Char, (∀ k, nameStart (s.drop k) = false) → strstr f.name s = none := by
  have hno : ∀ s, nameStart s = false → startsWith f.name s = false := by
    intro s hs
    cases h : startsWith f.name s with
    | false => rfl
    | true => rw [nameStart_of_startsWith P f hf s h] at hs; cases hs
  intro s
  induction s with
  | nil =>
    intro _
    have h0 := hno [] rfl
    cases hn : f.name with
    | nil => rw [hn] at h0; cases h0
    | cons c t => rfl
  | cons c t ih =>
    intro h
    have h0 := hno (c :: t) (h 0)
    have ht := ih (fun k => h (k + 1))
    simp [strstr, h0, ht]

theorem nameStart_text_drop (d : Dbl) (tail : List Char) (ht : tail = [] ∨ tail = [')'])
    (k : Nat) : nameStart ((snprintf_f d ++ tail).drop k) = false := by
  by_cases hk : k < (snprintf_f d).length
  · rw [List.drop_append_of_le_length (by omega)]
    exact nameStart_snprintf_f d tail k hk
  · have e : (snprintf_f d ++ tail).drop k = tail.drop (k - (snprintf_f d).length) := by
      rw [List.drop_append_eq_append_drop, List.drop_of_length_le (by omega)]
      rfl
    rw [e]
    rcases ht with rfl | rfl
    · simp [nameStart]
    · cases k - (snprintf_f d).length with
      | zero => rfl
      | succ j => simp [nameStart]

theorem strstr_text_none (P : Platform) (f : Function) (hf : f ∈ functions P) (d : Dbl)
    (tail : List Char) (ht : tail = [] ∨ tail = [')']) (j : Nat) :
    strstr f.name ((snprintf_f d ++ tail).drop j) = none := by
  apply strstr_none_of_nameStart P f hf
  intro k
  rw [drop_drop_add]
  exact nameStart_text_drop d tail ht _

theorem funcPass_no_names (recur : List Char → Outcome) (buf : List Char) :
    ∀ fs : List Function, (∀ f ∈ fs, strstr f.name buf = none) →
      funcPass recur fs buf = .ok buf := by
  intro fs
  induction fs with
  | nil => intro _; rfl
  | cons f fs ih =>
    intro h
    have h0 := h f (List.mem_cons_self _ _)
    simp only [funcPass, funcEntry, h0]
    exact ih (fun g hg => h g (List.mem_cons_of_mem _ hg))

theorem funcPass_text (P : Platform) (recur : List Char → Outcome) (d : Dbl)
    (tail : List Char) (ht : tail = [] ∨ tail = [')']) (fs : List Function)
    (hfs : ∀ f ∈ fs, f ∈ functions P) :
    funcPass recur fs (snprintf_f d ++ tail) = .ok (snprintf_f d ++ tail) :=
  funcPass_no_names recur _ fs (fun f hf => by
    have := strstr_text_none P f (hfs f hf) d tail ht 0
    simpa using this)

theorem funcLoop_splice (f : Function) (recur : List Char → Outcome) (fuel : Nat)
    (buf : List Char) (pos o c : Nat) (arg : List Char) (a : Dbl) (tail : List Char)
    (ho : strchr '(' (buf.drop pos) = some o)
    (hc : strchr ')' ((buf.drop pos).drop o) = some c)
    (harg : ((buf.drop pos).drop (o + 1)).take (c - 1) = arg)
    (hrec : recur arg = .ret a)
    (htail : (buf.drop pos).drop (o + c + 1) = tail)
    (hnext : strstr f.name ((buf.take pos ++ snprintf_f (f.func a) ++ tail).drop (pos + 1))
      = none) :
    funcLoop f recur (fuel + 1) buf pos = .ok (buf.take pos ++ snprintf_f (f.func a) ++ tail) := by
  simp only [funcLoop, ho, hc, harg, hrec, htail, hnext]

theorem funcPass_cons_none (recur : List Char → Outcome) (f : Function) (fs : List Function)
    (buf : List Char) (h : strstr f.name buf = none) :
    funcPass recur (f :: fs) buf = funcPass recur fs buf := by
  simp only [funcPass, funcEntry, h]

theorem funcPass_cons_ok (recur : List Char → Outcome) (f : Function) (fs : List Function)
    (buf b : List Char) (h : funcEntry f recur buf = .ok b) :
    funcPass recur (f :: fs) buf = funcPass recur fs b := by
  simp only [funcPass, h]

theorem funcEntry_at (f : Function) (recur : List Char → Outcome) (buf : List Char)
    (pos : Nat) (h : strstr f.name buf = some pos) :
    funcEntry f recur buf = funcLoop f recur (buf.length + 1) buf pos := by
  simp only [funcEntry, h]

theorem evalFuel_succ (P : Platform) (fuel : Nat) (expr : List Char) (x : Dbl) :
    evalFuel P (fuel + 1) expr x =
      match substitute expr x with
      | none => .ret .nan
      | some buf =>
        match funcPass (fun arg => evalFuel P fuel arg x) (functions P) buf with
        | .error bad => bad
        | .ok buf1 => evalArith P buf1 := rfl

/-- The call `cos(0`, cut from `sin(cos(0))`, returns a double. -/
theorem eval_cos_arg (P : Platform) (x : Dbl) :
    ∃ v, evalFuel P 2 ['c', 'o', 's', '(', '0'] x = .ret v := by
  obtain ⟨v, hv⟩ := evalArith_text P (P.cos (.fin 0))
  refine ⟨v, ?_⟩
  have hsub : substitute ['c', 'o', 's', '(', '0'] x = some ['c', 'o', 's', '(', '0', ')'] := rfl
  have hrec : evalFuel P 1 ['0'] x = .ret (.fin 0) := rfl
  have hentry : funcEntry ⟨['c', 'o', 's'], P.cos⟩ (fun arg => evalFuel P 1 arg x)
      ['c', 'o', 's', '(', '0', ')'] = .ok (snprintf_f (P.cos (.fin 0)) ++ []) := by
    rw [funcEntry_at ⟨['c', 'o', 's'], P.cos⟩ _ ['c', 'o', 's', '(', '0', ')'] 0 rfl]
    exact funcLoop_splice ⟨['c', 'o', 's'], P.cos⟩ (fun arg => evalFuel P 1 arg x) _
      ['c', 'o', 's', '(', '0', ')'] 0 3 2 ['0'] (.fin 0) [] rfl rfl rfl hrec rfl
      (strstr_text_none P ⟨['c', 'o', 's'], P.cos⟩ (by simp [functions]) _ [] (Or.inl rfl) 1)
  have hpass : funcPass (fun arg => evalFuel P 1 arg x) (functions P)
      ['c', 'o', 's', '(', '0', ')'] = .ok (snprintf_f (P.cos (.fin 0)) ++ []) := by
    rw [functions, funcPass_cons_none _ ⟨['s', 'i', 'n'], P.sin⟩ _
        ['c', 'o', 's', '(', '0', ')'] rfl,
      funcPass_cons_ok _ _ _ _ _ hentry]
    exact funcPass_text P _ _ [] (Or.inl rfl) _ (fun f hf => by
      simp only [functions]
      exact List.mem_cons_of_mem _ (List.mem_cons_of_mem _ hf))
  rw [evalFuel_succ, hsub]
  simp only
  rw [hpass]
  simpa using hv

/-- The claim's example `sin(cos(0))` returns NaN on every platform. -/
theorem eval_sin_cos (P : Platform) (x : Dbl) :
    evaluate_expression P "sin(cos(0))".toList x = .ret .nan := by
  obtain ⟨v, hv⟩ := eval_cos_arg P x
  have hfuel : evaluate_expression P "sin(cos(0))".toList x =
      evalFuel P 3 ['s', 'i', 'n', '(', 'c', 'o', 's', '(', '0', ')', ')'] x := rfl
  have hsub : substitute ['s', 'i', 'n', '(', 'c', 'o', 's', '(', '0', ')', ')'] x =
      some ['s', 'i', 'n', '(', 'c', 'o', 's', '(', '0', ')', ')'] := rfl
  have hentry : funcEntry ⟨['s', 'i', 'n'], P.sin⟩ (fun arg => evalFuel P 2 arg x)
      ['s', 'i', 'n', '(', 'c', 'o', 's', '(', '0', ')', ')'] =
        .ok (snprintf_f (P.sin v) ++ [')']) := by
    rw [funcEntry_at ⟨['s', 'i', 'n'], P.sin⟩ _
      ['s', 'i', 'n', '(', 'c', 'o', 's', '(', '0', ')', ')'] 0 rfl]
    exact funcLoop_splice ⟨['s', 'i', 'n'], P.sin⟩ (fun arg => evalFuel P 2 arg x) _
      ['s', 'i', 'n', '(', 'c', 'o', 's', '(', '0', ')', ')'] 0 3 6 ['c', 'o', 's', '(', '0'] v
      [')'] rfl rfl rfl hv rfl
      (strstr_text_none P ⟨['s', 'i', 'n'], P.sin⟩ (by simp [functions]) _ [')']
        (Or.inr rfl) 1)
  have hpass : funcPass (fun arg => evalFuel P 2 arg x) (functions P)
      ['s', 'i', 'n', '(', 'c', 'o', 's', '(', '0', ')', ')'] =
        .ok (snprintf_f (P.sin v) ++ [')']) := by
    rw [functions, funcPass_cons_ok _ _ _ _ _ hentry]
    exact funcPass_text P _ _ [')'] (Or.inr rfl) _ (fun f hf => by
      simp only [functions]
      exact List.mem_cons_of_mem _ hf)
  rw [hfuel, evalFuel_succ, hsub]
  simp only
  rw [hpass]
  exact evalArith_text_close P _ []

theorem funcPass_skip (recur : List Char → Outcome) (buf : List Char) (fs2 : List Function) :
    ∀ fs1 : List Function, (∀ f ∈ fs1, strstr f.name buf = none) →
      funcPass recur (fs1 ++ fs2) buf = funcPass recur fs2 buf := by
  intro fs1
  induction fs1 with
  | nil => intro _; rfl
  | cons f fs1 ih =>
    intro h
    rw [List.cons_append, funcPass_cons_none _ _ _ _ (h f (List.mem_cons_self _ _))]
    exact ih (fun g hg => h g (List.mem_cons_of_mem _ hg))

/-- The call `sqrt(16`, cut from `sqrt(sqrt(16))`, returns a double. -/
theorem eval_sqrt_arg (P : Platform) (x : Dbl) :
    ∃ v, evalFuel P 2 ['s', 'q', 'r', 't', '(', '1', '6'] x = .ret v := by
  obtain ⟨v, hv⟩ := evalArith_text P (P.sqrt (P.round 16))
  refine ⟨v, ?_⟩
  have hsub : substitute ['s', 'q', 'r', 't', '(', '1', '6'] x =
      some ['s', 'q', 'r', 't', '(', '1', '6', ')'] := rfl
  have hrec : evalFuel P 1 ['1', '6'] x = .ret (P.round 16) := by with_unfolding_all rfl
  have hentry : funcEntry ⟨['s', 'q', 'r', 't'], P.sqrt⟩ (fun arg => evalFuel P 1 arg x)
      ['s', 'q', 'r', 't', '(', '1', '6', ')'] = .ok (snprintf_f (P.sqrt (P.round 16)) ++ []) := by
    rw [funcEntry_at ⟨['s', 'q', 'r', 't'], P.sqrt⟩ _ ['s', 'q', 'r', 't', '(', '1', '6', ')'] 0
      rfl]
    exact funcLoop_splice ⟨['s', 'q', 'r', 't'], P.sqrt⟩ (fun arg => evalFuel P 1 arg x) _
      ['s', 'q', 'r', 't', '(', '1', '6', ')'] 0 4 3 ['1', '6'] (P.round 16) [] rfl rfl rfl
      hrec rfl
      (strstr_text_none P ⟨['s', 'q', 'r', 't'], P.sqrt⟩ (by simp [functions]) _ []
        (Or.inl rfl) 1)
  have hsplit : functions P =
      [⟨['s', 'i', 'n'], P.sin⟩, ⟨['c', 'o', 's'], P.cos⟩, ⟨['t', 'a', 'n'], P.tan⟩,
        ⟨['a', 's', 'i', 'n'], P.asin⟩, ⟨['a', 'c', 'o', 's'], P.acos⟩,
        ⟨['a', 't', 'a', 'n'], P.atan⟩, ⟨['l', 'o', 'g'], P.log10⟩, ⟨['l', 'n'], P.log⟩] ++
      (⟨['s', 'q', 'r', 't'], P.sqrt⟩ ::
        [⟨['e', 'x', 'p'], P.exp⟩, ⟨['e', 'n', 't', 'r', 'o', 'p', 'y'], shannon_entropy P⟩]) :=
    rfl
  have hpass : funcPass (fun arg => evalFuel P 1 arg x) (functions P)
      ['s', 'q', 'r', 't', '(', '1', '6', ')'] =
        .ok (snprintf_f (P.sqrt (P.round 16)) ++ []) := by
    rw [hsplit, funcPass_skip _ _ _ _ (by
      intro f hf
      simp only [List.mem_cons, List.mem_singleton, List.mem_nil_iff, or_false] at hf
      rcases hf with rfl | rfl | rfl | rfl | rfl | rfl | rfl | rfl <;> rfl),
      funcPass_cons_ok _ _ _ _ _ hentry]
    exact funcPass_text P _ _ [] (Or.inl rfl) _ (fun f hf => by
      rw [hsplit]
      exact List.mem_append_right _ (List.mem_cons_of_mem _ hf))
  rw [evalFuel_succ, hsub]
  simp only
  rw [hpass]
  simpa using hv

/-- The claim's example `sqrt(sqrt(16))` returns NaN on every platform. -/
theorem eval_sqrt_sqrt (P : Platform) (x : Dbl) :
    evaluate_expression P "sqrt(sqrt(16))".toList x = .ret .nan := by
  obtain ⟨v, hv⟩ := eval_sqrt_arg P x
  have hfuel : evaluate_expression P "sqrt(sqrt(16))".toList x =
      evalFuel P 3 ['s', 'q', 'r', 't', '(', 's', 'q', 'r', 't', '(', '1', '6', ')', ')'] x := rfl
  have hsub : substitute ['s', 'q', 'r', 't', '(', 's', 'q', 'r', 't', '(', '1', '6', ')', ')'] x
      = some ['s', 'q', 'r', 't', '(', 's', 'q', 'r', 't', '(', '1', '6', ')', ')'] := rfl
  have hentry : funcEntry ⟨['s', 'q', 'r', 't'], P.sqrt⟩ (fun arg => evalFuel P 2 arg x)
      ['s', 'q', 'r', 't', '(', 's', 'q', 'r', 't', '(', '1', '6', ')', ')'] =
        .ok (snprintf_f (P.sqrt v) ++ [')']) := by
    rw [funcEntry_at ⟨['s', 'q', 'r', 't'], P.sqrt⟩ _
      ['s', 'q', 'r', 't', '(', 's', 'q', 'r', 't', '(', '1', '6', ')', ')'] 0 rfl]
    exact funcLoop_splice ⟨['s', 'q', 'r', 't'], P.sqrt⟩ (fun arg => evalFuel P 2 arg x) _
      ['s', 'q', 'r', 't', '(', 's', 'q', 'r', 't', '(', '1', '6', ')', ')'] 0 4 8
      ['s', 'q', 'r', 't', '(', '1', '6'] v [')'] rfl rfl rfl hv rfl
      (strstr_text_none P ⟨['s', 'q', 'r', 't'], P.sqrt⟩ (by simp [functions]) _ [')']
        (Or.inr rfl) 1)
  have hsplit : functions P =
      [⟨['s', 'i', 'n'], P.sin⟩, ⟨['c', 'o', 's'], P.cos⟩, ⟨['t', 'a', 'n'], P.tan⟩,
        ⟨['a', 's', 'i', 'n'], P.asin⟩, ⟨['a', 'c', 'o', 's'], P.acos⟩,
        ⟨['a', 't', 'a', 'n'], P.atan⟩, ⟨['l', 'o', 'g'], P.log10⟩, ⟨['l', 'n'], P.log⟩] ++
      (⟨['s', 'q', 'r', 't'], P.sqrt⟩ ::
        [⟨['e', 'x', 'p'], P.exp⟩, ⟨['e', 'n', 't', 'r', 'o', 'p', 'y'], shannon_entropy P⟩]) :=
    rfl
  have hpass : funcPass (fun arg => evalFuel P 2 arg x) (functions P)
      ['s', 'q', 'r', 't', '(', 's', 'q', 'r', 't', '(', '1', '6', ')', ')'] =
        .ok (snprintf_f (P.sqrt v) ++ [')']) := by
    rw [hsplit, funcPass_skip _ _ _ _ (by
      intro f hf
      simp only [List.mem_cons, List.mem_singleton, List.mem_nil_iff, or_false] at hf
      rcases hf with rfl | rfl | rfl | rfl | rfl | rfl | rfl | rfl <;> rfl),
      funcPass_cons_ok _ _ _ _ _ hentry]
    exact funcPass_text P _ _ [')'] (Or.inr rfl) _ (fun f hf => by
      rw [hsplit]
      exact List.mem_append_right _ (List.mem_cons_of_mem _ hf))
  rw [hfuel, evalFuel_succ, hsub]
  simp only
  rw [hpass]
  exact evalArith_text_close P _ []

/-! ### The counts of the tokenizer -/

/-- When the tokenizer finishes, it has one more value than operators if it
stopped after a value, and as many values as operators if it stopped at the
start or after an operator. -/
theorem tokenize_counts (P : Platform) : ∀ (s : List Char) (skip : Nat) (prev : Option Char)
    (e : Bool) (vals : List Dbl) (ops V : List Char) (W : List Dbl),
    vals.length = ops.length + (if e then 1 else 0) →
    tokenize P skip prev e vals ops s = some (W, V) →
    W.length = V.length + 1 ∨ W.length = V.length := by
  intro s
  induction s with
  | nil =>
    intro skip prev e vals ops V W h ht
    simp only [tokenize, Option.some.injEq, Prod.mk.injEq] at ht
    obtain ⟨rfl, rfl⟩ := ht
    cases e
    · exact Or.inr (by simpa using h)
    · exact Or.inl (by simpa using h)
  | cons c t ih =>
    intro skip prev e vals ops V W h ht
    cases skip with
    | succ k =>
      simp only [tokenize] at ht
      exact ih _ _ _ _ _ _ _ h ht
    | zero =>
      simp only [tokenize] at ht
      split at ht
      · exact ih _ _ _ _ _ _ _ h ht
      · split at ht
        · rename_i hop
          simp only [Bool.and_eq_true] at hop
          refine ih _ _ _ _ _ _ _ ?_ ht
          simp only [hop.1, if_true] at h
          simp [h]
        · cases hr : readValue P prev c t with
          | none => simp [hr] at ht
          | some p =>
            obtain ⟨v, n⟩ := p
            simp only [hr] at ht
            refine ih _ _ _ _ _ _ _ ?_ ht
            cases e
            · simp only [Bool.false_eq_true, if_false, Nat.add_zero] at h
              simp [h]
            · simp only [if_true] at h
              simp [h]

/-! ### The evaluator with the sizes of its arrays -/

theorem substituteBounded_x_free (expr : List Char) (h : 'x' ∉ expr) (x1 x2 : Dbl) :
    substituteBounded expr x1 = substituteBounded expr x2 ∧
      ∀ b, substituteBounded expr x1 = .ok b → 'x' ∉ b := by
  cases hcp : closeParens expr with
  | none =>
    refine ⟨by simp [substituteBounded, hcp], ?_⟩
    intro b hb
    simp only [substituteBounded, hcp] at hb
    split_ifs at hb
  | some b0 =>
    have hb0 : 'x' ∉ b0 := by
      intro hx
      rcases closeParens_mem expr b0 hcp _ hx with h1 | h1
      · exact h h1
      · exact absurd h1 (by decide)
    refine ⟨by simp [substituteBounded, hcp, replaceAll_x_noop _ b0 hb0], ?_⟩
    intro b hb hx
    simp only [substituteBounded, hcp, replaceAll_x_noop _ b0 hb0] at hb
    split_ifs at hb
    simp only [Except.ok.injEq] at hb
    subst hb
    rcases mem_replaceE _ _ _ hx with h1 | h1
    · rcases mem_replaceAll _ _ _ _ _ h1 with h2 | h2
      · rcases mem_replaceAll _ _ _ _ _ h2 with h3 | h3
        · exact hb0 h3
        · exact absurd h3 (by decide)
      · exact absurd h2 (by decide)
    · exact absurd h1 (by decide)

theorem funcLoopBounded_x_free (f : Function) (r1 r2 : List Char → Outcome)
    (hr : ∀ a, 'x' ∉ a → r1 a = r2 a) : ∀ (fuel : Nat) (buf : List Char) (pos : Nat),
    'x' ∉ buf → funcLoopBounded f r1 fuel buf pos = funcLoopBounded f r2 fuel buf pos ∧
      ∀ b, funcLoopBounded f r1 fuel buf pos = .ok b → 'x' ∉ b := by
  intro fuel
  induction fuel with
  | zero => intro buf pos _; simp [funcLoopBounded]
  | succ fuel ih =>
    intro buf pos hb
    simp only [funcLoopBounded]
    cases ho : strchr '(' (buf.drop pos) with
    | none => simp
    | some o =>
      simp only
      cases hc : strchr ')' ((buf.drop pos).drop o) with
      | none =>
        simp only
        cases hs : strstr f.name (buf.drop (pos + 1)) with
        | none => exact ⟨rfl, fun b hb1 => by cases hb1; exact hb⟩
        | some k => exact ih buf _ hb
      | some c =>
        simp only
        by_cases hlen : c - 1 < MAX_EXPR_LENGTH
        · simp only [hlen, if_true]
          have harg : 'x' ∉ ((buf.drop pos).drop (o + 1)).take (c - 1) := fun hx =>
            hb (List.mem_of_mem_drop (List.mem_of_mem_drop (List.mem_of_mem_take hx)))
          rw [← hr _ harg]
          cases hrec : r1 (((buf.drop pos).drop (o + 1)).take (c - 1)) with
          | ret arg =>
            simp only
            have hnew : 'x' ∉ buf.take pos ++ snprintf_f (f.func arg) ++
                (buf.drop pos).drop (o + c + 1) := by
              intro hx
              rcases List.mem_append.mp hx with h1 | h1
              · rcases List.mem_append.mp h1 with h2 | h2
                · exact hb (List.mem_of_mem_take h2)
                · exact x_not_mem_snprintf_f _ h2
              · exact hb (List.mem_of_mem_drop (List.mem_of_mem_drop h1))
            cases hfit : fitsTempExpr (buf.take pos ++ snprintf_f (f.func arg) ++
                (buf.drop pos).drop (o + c + 1)) with
            | false => simp
            | true =>
              simp only [if_true]
              cases hs : strstr f.name ((buf.take pos ++ snprintf_f (f.func arg) ++
                  (buf.drop pos).drop (o + c + 1)).drop (pos + 1)) with
              | none => exact ⟨rfl, fun b hb1 => by cases hb1; exact hnew⟩
              | some k => exact ih _ _ hnew
          | uninitRead => simp
          | nullDeref => simp
          | bufferOverrun => simp
          | outOfFuel => simp
        · simp [hlen]

theorem funcPassBounded_x_free (r1 r2 : List Char → Outcome)
    (hr : ∀ a, 'x' ∉ a → r1 a = r2 a) : ∀ (fs : List Function) (buf : List Char),
    'x' ∉ buf → funcPassBounded r1 fs buf = funcPassBounded r2 fs buf := by
  intro fs
  induction fs with
  | nil => intro buf _; rfl
  | cons f fs ih =>
    intro buf hb
    have key : funcEntryBounded f r1 buf = funcEntryBounded f r2 buf ∧
        ∀ b, funcEntryBounded f r1 buf = .ok b → 'x' ∉ b := by
      unfold funcEntryBounded
      cases strstr f.name buf with
      | none => exact ⟨rfl, fun b hb1 => by cases hb1; exact hb⟩
      | some pos => exact funcLoopBounded_x_free f r1 r2 hr _ buf pos hb
    simp only [funcPassBounded, ← key.1]
    cases he : funcEntryBounded f r1 buf with
    | error bad => rfl
    | ok b => exact ih b (key.2 b he)

theorem evalFuelBounded_x_free (P : Platform) (x1 x2 : Dbl) : ∀ (fuel : Nat) (expr : List Char),
    'x' ∉ expr → evalFuelBounded P fuel expr x1 = evalFuelBounded P fuel expr x2 := by
  intro fuel
  induction fuel with
  | zero => intro expr _; rfl
  | succ fuel ih =>
    intro expr h
    obtain ⟨h1, h2⟩ := substituteBounded_x_free expr h x1 x2
    simp only [evalFuelBounded, ← h1]
    cases hs : substituteBounded expr x1 with
    | error bad => rfl
    | ok buf =>
      simp only
      rw [funcPassBounded_x_free _ _ (fun a ha => ih a ha) _ buf (h2 buf hs)]

theorem substituteBounded_cases (expr : List Char) (x : Dbl) :
    substituteBounded expr x = .error .bufferOverrun ∨
    (substituteBounded expr x = .error (.ret .nan) ∧ substitute expr x = none) ∨
    ∃ b, substituteBounded expr x = .ok b ∧ substitute expr x = some b := by
  cases hcp : closeParens expr with
  | none =>
    simp only [substituteBounded, substitute, hcp, Option.map_none']
    split_ifs <;> simp
  | some b0 =>
    simp only [substituteBounded, substitute, hcp, Option.map_some']
    split_ifs <;> simp

theorem funcLoopBounded_cases (f : Function) (r1 r2 : List Char → Outcome)
    (hr : ∀ a, r1 a = .bufferOverrun ∨ r1 a = r2 a) :
    ∀ (fuel : Nat) (buf : List Char) (pos : Nat),
      funcLoopBounded f r1 fuel buf pos = .error .bufferOverrun ∨
      funcLoopBounded f r1 fuel buf pos = funcLoop f r2 fuel buf pos := by
  intro fuel
  induction fuel with
  | zero => intro buf pos; exact Or.inr rfl
  | succ fuel ih =>
    intro buf pos
    simp only [funcLoopBounded, funcLoop]
    cases ho : strchr '(' (buf.drop pos) with
    | none => exact Or.inr rfl
    | some o =>
      simp only
      cases hc : strchr ')' ((buf.drop pos).drop o) with
      | none =>
        simp only
        cases hs : strstr f.name (buf.drop (pos + 1)) with
        | none => exact Or.inr rfl
        | some k => exact ih buf _
      | some c =>
        simp only
        by_cases hlen : c - 1 < MAX_EXPR_LENGTH
        · simp only [hlen, if_true]
          rcases hr (((buf.drop pos).drop (o + 1)).take (c - 1)) with h1 | h1
          · rw [h1]; exact Or.inl rfl
          · rw [h1]
            cases hrec : r2 (((buf.drop pos).drop (o + 1)).take (c - 1)) with
            | ret arg =>
              simp only
              cases hfit : fitsTempExpr (buf.take pos ++ snprintf_f (f.func arg) ++
                  (buf.drop pos).drop (o + c + 1)) with
              | false => exact Or.inl rfl
              | true =>
                simp only [if_true]
                cases hs : strstr f.name ((buf.take pos ++ snprintf_f (f.func arg) ++
                    (buf.drop pos).drop (o + c + 1)).drop (pos + 1)) with
                | none => exact Or.inr rfl
                | some k => exact ih _ _
            | uninitRead => exact Or.inr rfl
            | nullDeref => exact Or.inr rfl
            | bufferOverrun => exact Or.inl rfl
            | outOfFuel => exact Or.inr rfl
        · simp [hlen]

theorem funcPassBounded_cases (r1 r2 : List Char → Outcome)
    (hr : ∀ a, r1 a = .bufferOverrun ∨ r1 a = r2 a) :
    ∀ (fs : List Function) (buf : List Char),
      funcPassBounded r1 fs buf = .error .bufferOverrun ∨
      funcPassBounded r1 fs buf = funcPass r2 fs buf := by
  intro fs
  induction fs with
  | nil => intro buf; exact Or.inr rfl
  | cons f fs ih =>
    intro buf
    have key : funcEntryBounded f r1 buf = .error .bufferOverrun ∨
        funcEntryBounded f r1 buf = funcEntry f r2 buf := by
      unfold funcEntryBounded funcEntry
      cases strstr f.name buf with
      | none => exact Or.inr rfl
      | some pos => exact funcLoopBounded_cases f r1 r2 hr _ buf pos
    simp only [funcPassBounded, funcPass]
    rcases key with h1 | h1
    · rw [h1]; exact Or.inl rfl
    · rw [h1]
      cases he : funcEntry f r2 buf with
      | error bad => exact Or.inr rfl
      | ok b => exact ih b

theorem tokenizeBounded_cases (P : Platform) : ∀ (s : List Char) (skip : Nat)
    (prev : Option Char) (expecting : Bool) (vals : List Dbl) (ops : List Char),
    tokenizeBounded P skip prev expecting vals ops s = .error .bufferOverrun ∨
    (tokenizeBounded P skip prev expecting vals ops s = .error (.ret .nan) ∧
      tokenize P skip prev expecting vals ops s = none) ∨
    ∃ r, tokenizeBounded P skip prev expecting vals ops s = .ok r ∧
      tokenize P skip prev expecting vals ops s = some r := by
  intro s
  induction s with
  | nil =>
    intro skip prev expecting vals ops
    cases skip <;> exact Or.inr (Or.inr ⟨_, rfl, rfl⟩)
  | cons c t ih =>
    intro skip prev expecting vals ops
    cases skip with
    | succ k =>
      simp only [tokenizeBounded, tokenize]
      exact ih _ _ _ _ _
    | zero =>
      simp only [tokenizeBounded, tokenize]
      by_cases h1 : isspace c = true
      · simp only [h1, if_true]
        exact ih _ _ _ _ _
      · simp only [h1, Bool.false_eq_true, if_false]
        by_cases h2 : (expecting && is_operator c) = true
        · simp only [h2, if_true]
          by_cases h3 : ops.length < MAX_EXPR_LENGTH
          · simp only [h3, if_true]
            exact ih _ _ _ _ _
          · simp only [h3, if_false]
            exact Or.inl trivial
        · simp only [h2, Bool.false_eq_true, if_false]
          by_cases h3 : (expecting && !decide (ops.length < MAX_EXPR_LENGTH)) = true
          · simp only [h3, if_true]
            exact Or.inl trivial
          · simp only [h3, Bool.false_eq_true, if_false]
            by_cases h4 : vals.length < MAX_EXPR_LENGTH
            · simp only [h4, if_true]
              cases hv : readValue P prev c t with
              | none => exact Or.inr (Or.inl ⟨rfl, rfl⟩)
              | some r =>
                obtain ⟨v, n⟩ := r
                exact ih _ _ _ _ _
            · simp only [h4, if_false]
              exact Or.inl trivial

theorem evalArithBounded_cases (P : Platform) (buf : List Char) :
    evalArithBounded P buf = .bufferOverrun ∨ evalArithBounded P buf = evalArith P buf := by
  unfold evalArithBounded evalArith
  rcases tokenizeBounded_cases P buf 0 none false [] [] with h | ⟨h1, h2⟩ | ⟨r, h1, h2⟩
  · rw [h]; exact Or.inl rfl
  · rw [h1, h2]; exact Or.inr rfl
  · rw [h1, h2]; exact Or.inr rfl

theorem evalFuelBounded_cases (P : Platform) (x : Dbl) : ∀ (fuel : Nat) (expr : List Char),
    evalFuelBounded P fuel expr x = .bufferOverrun ∨
    evalFuelBounded P fuel expr x = evalFuel P fuel expr x := by
  intro fuel
  induction fuel with
  | zero => intro expr; exact Or.inr rfl
  | succ fuel ih =>
    intro expr
    simp only [evalFuelBounded, evalFuel]
    rcases substituteBounded_cases expr x with h | ⟨h1, h2⟩ | ⟨b, h1, h2⟩
    · rw [h]; exact Or.inl rfl
    · rw [h1, h2]; exact Or.inr rfl
    · rw [h1, h2]
      simp only
      rcases funcPassBounded_cases (fun arg => evalFuelBounded P fuel arg x)
          (fun arg => evalFuel P fuel arg x) (fun a => ih a) (functions P) b with h3 | h3
      · rw [h3]; exact Or.inl rfl
      · rw [h3]
        cases hf : funcPass (fun arg => evalFuel P fuel arg x) (functions P) b with
        | error bad => exact Or.inr rfl
        | ok b1 => exact evalArithBounded_cases P b1

theorem evaluate_expression_bounded_cases (P : Platform) (expr : List Char) (x : Dbl) :
    evaluate_expression_bounded P expr x = .bufferOverrun ∨
    evaluate_expression_bounded P expr x = evaluate_expression P expr x :=
  evalFuelBounded_cases P x _ expr

theorem evaluate_expression_bounded_ne_outOfFuel (P : Platform) (expr : List Char) (x : Dbl) :
    evaluate_expression_bounded P expr x ≠ .outOfFuel := by
  rcases evaluate_expression_bounded_cases P expr x with h | h
  · rw [h]; exact fun h1 => by cases h1
  · rw [h]; exact evaluate_expression_ne_outOfFuel P expr x

set_option maxHeartbeats 4000000 in
theorem bounded_sin_trailing_operator (P : Platform) (x : Dbl) :
    evaluate_expression_bounded P "sin(2+)".toList x = .uninitRead := by
  rfl

theorem substituteBounded_pi_40 :
    substituteBounded (List.replicate 40 ['p', 'i']).flatten (.fin 0) =
      .error .bufferOverrun := by
  decide!

theorem bounded_pi_40 (P : Platform) (x : Dbl) :
    evaluate_expression_bounded P (List.replicate 40 ['p', 'i']).flatten x = .bufferOverrun := by
  have h1 := (substituteBounded_x_free (List.replicate 40 ['p', 'i']).flatten (by decide) x
    (.fin 0)).1
  have h2 : evaluate_expression_bounded P (List.replicate 40 ['p', 'i']).flatten x =
      evalFuelBounded P (0 + 1) (List.replicate 40 ['p', 'i']).flatten x := rfl
  rw [h2, evalFuelBounded, h1, substituteBounded_pi_40]

/-! ### `zoom` with exact arithmetic -/

theorem exactArith_refPlatform : ExactArith refPlatform where
  round_fin := fun _ => rfl
  add_fin := fun _ _ => rfl
  sub_fin := fun a b => by
    show Ref.add (.fin a) (Dbl.neg (.fin b)) = .fin (a - b)
    by_cases hb : b = 0
    · simp [Dbl.neg, hb, Ref.add]
    · simp [Dbl.neg, hb, Ref.add, sub_eq_add_neg]
  mul_pos := fun a b hb => by
    show Ref.mul (.fin a) (.fin b) = .fin (a * b)
    have hb1 : ¬ b < 0 := not_lt.mpr hb.le
    have hb2 : b ≠ 0 := hb.ne.symm
    rcases lt_trichotomy a 0 with ha | ha | ha
    · have h1 : ¬ (a = 0) := ha.ne
      simp [Ref.mul, Dbl.isNaN, Dbl.isInf, Ref.mkFin, Ref.sign, Ref.mag, ha, hb1, hb2, h1,
        abs_of_neg ha, abs_of_pos hb]
    · simp [Ref.mul, Dbl.isNaN, Dbl.isInf, Ref.mkFin, Ref.sign, Ref.mag, ha, hb1]
    · have h1 : ¬ (a = 0) := ha.ne.symm
      have h2 : ¬ a < 0 := not_lt.mpr ha.le
      simp [Ref.mul, Dbl.isNaN, Dbl.isInf, Ref.mkFin, Ref.sign, Ref.mag, hb1, hb2, h1, h2,
        abs_of_pos ha, abs_of_pos hb]
  div_pos := fun a b hb => by
    show Ref.div (.fin a) (.fin b) = .fin (a / b)
    have hb1 : ¬ b < 0 := not_lt.mpr hb.le
    have hb2 : b ≠ 0 := hb.ne.symm
    rcases lt_trichotomy a 0 with ha | ha | ha
    · have h1 : ¬ (a = 0) := ha.ne
      simp [Ref.div, Dbl.isNaN, Dbl.isInf, Dbl.neZero, Ref.mkFin, Ref.sign, Ref.mag, ha, hb1, hb2,
        h1, abs_of_neg ha, abs_of_pos hb, neg_div]
    · simp [Ref.div, Dbl.isNaN, Dbl.isInf, Dbl.neZero, Ref.mkFin, Ref.sign, Ref.mag, ha, hb1, hb2]
    · have h1 : ¬ (a = 0) := ha.ne.symm
      have h2 : ¬ a < 0 := not_lt.mpr ha.le
      simp [Ref.div, Dbl.isNaN, Dbl.isInf, Dbl.neZero, Ref.mkFin, Ref.sign, Ref.mag, hb1, hb2, h1,
        h2, abs_of_pos ha, abs_of_pos hb]

theorem zoom_exact (P : Platform) (hP : ExactArith P) (f a b c d : ℚ) (hf : 0 < f) :
    zoom P (.fin f) ⟨.fin a, .fin b, .fin c, .fin d⟩ =
      ⟨.fin ((b + a) / 2 - (b - a) * f / 2), .fin ((b + a) / 2 + (b - a) * f / 2),
        .fin ((d + c) / 2 - (d - c) * f / 2), .fin ((d + c) / 2 + (d - c) * f / 2)⟩ := by
  have h2 : (0 : ℚ) < ((2 : Int) : ℚ) := by norm_num
  simp only [zoom, Dbl.ofInt, hP.add_fin, hP.sub_fin, hP.mul_pos _ _ hf, hP.div_pos _ _ h2]
  norm_num

/-! ### Rounding to binary64 -/

theorem log2Fuel_spec : ∀ (fuel n : Nat), n ≤ fuel → 1 ≤ n →
    2 ^ B64.log2Fuel fuel n ≤ n ∧ n < 2 ^ (B64.log2Fuel fuel n + 1) := by
  intro fuel
  induction fuel with
  | zero => intro n h1 h2; omega
  | succ fuel ih =>
    intro n h1 h2
    simp only [B64.log2Fuel]
    by_cases h : 2 ≤ n
    · simp only [h, if_true]
      obtain ⟨h3, h4⟩ := ih (n / 2) (by omega) (by omega)
      constructor
      · calc 2 ^ (B64.log2Fuel fuel (n / 2) + 1)
            = 2 ^ B64.log2Fuel fuel (n / 2) * 2 := pow_succ _ _
          _ ≤ n / 2 * 2 := Nat.mul_le_mul_right _ h3
          _ ≤ n := Nat.div_mul_le_self n 2
      · calc n < (n / 2 + 1) * 2 := by omega
          _ ≤ 2 ^ (B64.log2Fuel fuel (n / 2) + 1) * 2 := Nat.mul_le_mul_right _ h4
          _ = 2 ^ (B64.log2Fuel fuel (n / 2) + 1 + 1) := (pow_succ _ _).symm
    · simp only [h, if_false]
      simp
      omega

theorem log2_spec (n : Nat) (h : 1 ≤ n) :
    2 ^ B64.log2 n ≤ n ∧ n < 2 ^ (B64.log2 n + 1) :=
  log2Fuel_spec n n (Nat.le_refl n) h

theorem exponent_le (n d : Nat) (hn : 0 < n) (hd : 0 < d) :
    (2 : ℚ) ^ (B64.exponent n d) ≤ (n : ℚ) / d := by
  have hdq : (0 : ℚ) < d := by exact_mod_cast hd
  have hnq : (0 : ℚ) < n := by exact_mod_cast hn
  obtain ⟨h1, _⟩ := log2_spec n hn
  obtain ⟨_, h2⟩ := log2_spec d hd
  have h1q : (2 : ℚ) ^ B64.log2 n ≤ n := by exact_mod_cast h1
  have h2q : (d : ℚ) ≤ 2 ^ (B64.log2 d + 1) := by exact_mod_cast h2.le
  unfold B64.exponent
  simp only
  split_ifs with ht
  · generalize ((B64.log2 n : Int) - (B64.log2 d : Int)) = e0 at ht ⊢
    cases e0 with
    | ofNat k =>
      simp only [decide_eq_true_eq] at ht
      have : (d : ℚ) * 2 ^ k ≤ n := by exact_mod_cast ht
      rw [Int.ofNat_eq_coe, zpow_natCast, le_div_iff₀ hdq]
      linarith
    | negSucc k =>
      simp only [decide_eq_true_eq] at ht
      have : (d : ℚ) ≤ n * 2 ^ (k + 1) := by exact_mod_cast ht
      rw [zpow_negSucc, le_div_iff₀ hdq, inv_mul_le_iff₀ (by positivity)]
      linarith
  · have e : (B64.log2 n : Int) - (B64.log2 d : Int) - 1 =
        (B64.log2 n : Int) - ((B64.log2 d + 1 : Nat) : Int) := by push_cast; ring
    rw [e, zpow_sub₀ (by norm_num), zpow_natCast, zpow_natCast]
    exact div_le_div₀ hnq.le h1q hdq h2q

theorem roundHalfEven_err (N D : Nat) (hD : 0 < D) :
    |(roundHalfEven N D : ℚ) * D - N| ≤ (D : ℚ) / 2 := by
  have hN : (N : ℚ) = (D : ℚ) * (N / D : Nat) + (N % D : Nat) := by
    exact_mod_cast (Nat.div_add_mod N D).symm
  have hr : ((N % D : Nat) : ℚ) < D := by exact_mod_cast Nat.mod_lt N hD
  have hr0 : (0 : ℚ) ≤ (N % D : Nat) := by positivity
  unfold roundHalfEven
  simp only
  rw [abs_le]
  split_ifs with h1 h2 h3
  · have : (2 : ℚ) * (N % D : Nat) < D := by exact_mod_cast h1
    constructor <;> nlinarith
  · have : (D : ℚ) < 2 * (N % D : Nat) := by exact_mod_cast h2
    push_cast
    constructor <;> nlinarith
  · have : (2 : ℚ) * (N % D : Nat) = D := by
      have : 2 * (N % D) = D := by omega
      exact_mod_cast this
    constructor <;> nlinarith
  · have : (2 : ℚ) * (N % D : Nat) = D := by
      have : 2 * (N % D) = D := by omega
      exact_mod_cast this
    push_cast
    constructor <;> nlinarith

theorem scale_two (m : Nat) (p : Int) : scale m 2 p = (m : ℚ) * (2 : ℚ) ^ p := by
  cases p with
  | ofNat k => simp [scale]
  | negSucc k =>
    simp only [scale, Rat.mkRat_eq_div, zpow_negSucc]
    push_cast
    rw [div_eq_mul_inv]

theorem nearest_err (n d : Nat) (hn : 0 < n) (hd : 0 < d) :
    |scale (B64.nearest n d).1 2 (B64.nearest n d).2 - (n : ℚ) / d| ≤
      (n : ℚ) / d / 2 ^ 53 + 1 / 2 ^ 1075 := by
  have hdq : (0 : ℚ) < d := by exact_mod_cast hd
  have hnq : (0 : ℚ) < n := by exact_mod_cast hn
  have hexp := exponent_le n d hn hd
  have key : ∀ p : Int, p = max (B64.exponent n d - 52) (-1074) →
      (2 : ℚ) ^ p / 2 ≤ (n : ℚ) / d / 2 ^ 53 + 1 / 2 ^ 1075 := by
    intro p hp
    have hpos : (0 : ℚ) < (n : ℚ) / d / 2 ^ 53 := by positivity
    rcases max_cases (B64.exponent n d - 52) (-1074) with ⟨h1, _⟩ | ⟨h1, _⟩
    · rw [hp, h1, zpow_sub₀ (by norm_num)]
      have e : (2 : ℚ) ^ (52 : Int) = 2 ^ 52 := by norm_cast
      rw [e]
      have : (2 : ℚ) ^ B64.exponent n d / 2 ^ 52 / 2 ≤ (n : ℚ) / d / 2 ^ 52 / 2 := by
        gcongr
      have e2 : (n : ℚ) / d / 2 ^ 52 / 2 = (n : ℚ) / d / 2 ^ 53 := by ring
      have : (0 : ℚ) < 1 / 2 ^ 1075 := by positivity
      linarith
    · rw [hp, h1]
      have e : (2 : ℚ) ^ (-1074 : Int) / 2 = 1 / 2 ^ 1075 := by
        have e1 : (2 : ℚ) ^ (1074 : Int) = 2 ^ 1074 := zpow_natCast 2 1074
        have e2 : (2 : ℚ) ^ 1075 = 2 ^ 1074 * 2 := by
          rw [show (1075 : ℕ) = 1074 + 1 from rfl, pow_succ]
        rw [zpow_neg, e1, e2]
        generalize (2 : ℚ) ^ 1074 = t
        rw [one_div, mul_inv, div_eq_mul_inv]
      rw [e]
      linarith
  unfold B64.nearest
  simp only
  generalize hp : max (B64.exponent n d - 52) (-1074) = p
  have hk := key p hp.symm
  refine le_trans ?_ hk
  cases p with
  | ofNat k =>
    simp only
    have h := roundHalfEven_err n (d * 2 ^ k) (by positivity)
    rw [scale_two, Int.ofNat_eq_coe, zpow_natCast]
    have h2 : (0 : ℚ) < 2 ^ k := by positivity
    have e : ((roundHalfEven n (d * 2 ^ k) : ℚ)) * 2 ^ k - (n : ℚ) / d =
        ((roundHalfEven n (d * 2 ^ k) : ℚ) * ((d * 2 ^ k : Nat) : ℚ) - n) / d := by
      push_cast
      field_simp
      ring
    rw [e, abs_div, abs_of_pos hdq, div_le_iff₀ hdq]
    refine le_trans h ?_
    push_cast
    apply le_of_eq
    ring
  | negSucc k =>
    simp only
    have h := roundHalfEven_err (n * 2 ^ (k + 1)) d hd
    rw [scale_two, zpow_negSucc]
    have h2 : (0 : ℚ) < 2 ^ (k + 1) := by positivity
    have e : ((roundHalfEven (n * 2 ^ (k + 1)) d : ℚ)) * (2 ^ (k + 1))⁻¹ - (n : ℚ) / d =
        ((roundHalfEven (n * 2 ^ (k + 1)) d : ℚ) * d - ((n * 2 ^ (k + 1) : Nat) : ℚ)) /
          (d * 2 ^ (k + 1)) := by
      push_cast
      field_simp
      ring
    rw [e, abs_div, abs_of_pos (by positivity : (0 : ℚ) < d * 2 ^ (k + 1)),
      div_le_iff₀ (by positivity)]
    refine le_trans h ?_
    apply le_of_eq
    field_simp
    ring

theorem rat_abs_eq (q : ℚ) : |q| = (q.num.natAbs : ℚ) / q.den := by
  have hd : (0 : ℚ) < q.den := by exact_mod_cast q.den_pos
  conv_lhs => rw [← Rat.num_div_den q]
  rw [abs_div, abs_of_pos hd, Nat.cast_natAbs, Int.cast_abs]

theorem b64_round_value (q : ℚ) (hq : |q| ≤ B64.huge) :
    ∃ r, (B64.round q).value = some r ∧ |r - q| ≤ |q| / 2 ^ 53 + B64.tiny := by
  unfold B64.huge at hq
  unfold B64.tiny
  by_cases h0 : q = 0
  · refine ⟨0, by simp [B64.round, h0, Dbl.value], ?_⟩
    rw [h0]
    simp
  · have hn : 0 < q.num.natAbs := Int.natAbs_pos.mpr (Rat.num_ne_zero.mpr h0)
    have hd : 0 < q.den := q.den_pos
    have herr := nearest_err q.num.natAbs q.den hn hd
    rw [← rat_abs_eq] at herr
    have hη : (1 : ℚ) / 2 ^ 1075 ≤ 1 := by
      rw [div_le_one (by positivity)]
      exact one_le_pow₀ (by norm_num)
    have hΩ : (2 : ℚ) ≤ 2 ^ 1023 := by
      calc (2 : ℚ) = 2 ^ 1 := (pow_one 2).symm
        _ ≤ 2 ^ 1023 := pow_le_pow_right₀ (by norm_num) (by norm_num)
    have hΩ2 : (2 : ℚ) ^ 1024 = 2 ^ 1023 * 2 := by
      rw [show (1024 : ℕ) = 1023 + 1 from rfl, pow_succ]
    have hqpos : 0 < |q| := abs_pos.mpr h0
    unfold B64.round
    simp only [h0, if_false]
    rcases hnp : B64.nearest q.num.natAbs q.den with ⟨m, p⟩
    rw [hnp] at herr
    simp only at herr ⊢
    generalize hs : scale m 2 p = s at herr ⊢
    generalize (1 : ℚ) / 2 ^ 1075 = η at herr hη ⊢
    generalize (2 : ℚ) ^ 1023 = Ω at hq hΩ hΩ2
    have hs0 : 0 ≤ s := by
      rw [← hs, scale_two]
      exact mul_nonneg (Nat.cast_nonneg m) (zpow_nonneg (by norm_num) p)
    by_cases hm : m = 0
    · have hsz : s = 0 := by rw [← hs, hm, scale_two]; simp
      refine ⟨0, by split_ifs <;> simp [hm, Dbl.value], ?_⟩
      rw [hsz] at herr
      simpa using herr
    · simp only [hm, if_false]
      have hlt : ¬ ((2 : ℚ) ^ 1024 ≤ s) := by
        rw [hΩ2, not_le]
        have := (abs_le.mp herr).2
        have h53 : |q| / 2 ^ 53 ≤ |q| / 2 := by
          apply div_le_div_of_nonneg_left hqpos.le (by norm_num) (by norm_num)
        linarith
      simp only [hlt, if_false]
      by_cases hneg : q < 0
      · refine ⟨-s, by simp [hneg, Dbl.value], ?_⟩
        rw [abs_of_neg hneg] at herr ⊢
        rw [show -s - q = -(s - -q) by ring, abs_neg]
        exact herr
      · refine ⟨s, by simp [hneg, Dbl.value], ?_⟩
        rw [abs_of_nonneg (not_lt.mp hneg)] at herr ⊢
        exact herr

theorem b64_roundDbl_value (x : Dbl) (a : ℚ) (hx : x.value = some a) (ha : |a| ≤ B64.huge) :
    ∃ r, (B64.roundDbl x).value = some r ∧ |r - a| ≤ |a| / 2 ^ 53 + B64.tiny := by
  cases x with
  | fin q =>
    simp only [Dbl.value, Option.some.injEq] at hx
    subst hx
    exact b64_round_value q ha
  | negZero =>
    simp only [Dbl.value, Option.some.injEq] at hx
    subst hx
    refine ⟨0, rfl, ?_⟩
    simp [B64.tiny]
  | nan => simp [Dbl.value] at hx
  | pinf => simp [Dbl.value] at hx
  | ninf => simp [Dbl.value] at hx

theorem value_cases (x : Dbl) (a : ℚ) (hx : x.value = some a) :
    x = .fin a ∨ (x = .negZero ∧ a = 0) := by
  cases x with
  | fin q => left; simp only [Dbl.value, Option.some.injEq] at hx; rw [hx]
  | negZero => right; simp only [Dbl.value, Option.some.injEq] at hx; exact ⟨rfl, hx.symm⟩
  | nan => simp [Dbl.value] at hx
  | pinf => simp [Dbl.value] at hx
  | ninf => simp [Dbl.value] at hx

theorem value_neg (x : Dbl) (a : ℚ) (hx : x.value = some a) : x.neg.value = some (-a) := by
  rcases value_cases x a hx with rfl | ⟨rfl, rfl⟩
  · by_cases h : a = 0
    · simp [Dbl.neg, h, Dbl.value]
    · simp [Dbl.neg, h, Dbl.value]
  · simp [Dbl.neg, Dbl.value]

theorem ref_add_value (x y : Dbl) (a b : ℚ) (hx : x.value = some a) (hy : y.value = some b) :
    (Ref.add x y).value = some (a + b) := by
  rcases value_cases x a hx with rfl | ⟨rfl, rfl⟩ <;>
    rcases value_cases y b hy with rfl | ⟨rfl, rfl⟩ <;> simp [Ref.add, Dbl.value]

theorem ref_sub_value (x y : Dbl) (a b : ℚ) (hx : x.value = some a) (hy : y.value = some b) :
    (Ref.sub x y).value = some (a - b) := by
  rw [Ref.sub, sub_eq_add_neg]
  exact ref_add_value x y.neg a (-b) hx (value_neg y b hy)

theorem value_mkFin (s : Bool) (m : ℚ) :
    (Ref.mkFin s m).value = some (if s then -m else m) := by
  unfold Ref.mkFin
  by_cases h : m = 0
  · cases s <;> simp [h, Dbl.value]
  · cases s <;> simp [h, Dbl.value]

theorem sign_mag (x : Dbl) (a : ℚ) (hx : x.value = some a) :
    (if Ref.sign x then -Ref.mag x else Ref.mag x) = a := by
  rcases value_cases x a hx with rfl | ⟨rfl, rfl⟩
  · by_cases h : a < 0
    · simp [Ref.sign, Ref.mag, h, abs_of_neg h]
    · simp [Ref.sign, Ref.mag, h, abs_of_nonneg (not_lt.mp h)]
  · simp [Ref.sign, Ref.mag]

theorem ref_mul_value (x y : Dbl) (a b : ℚ) (hx : x.value = some a) (hy : y.value = some b) :
    (Ref.mul x y).value = some (a * b) := by
  have h1 := sign_mag x a hx
  have h2 := sign_mag y b hy
  have hf : x.isNaN = false ∧ x.isInf = false ∧ y.isNaN = false ∧ y.isInf = false := by
    rcases value_cases x a hx with rfl | ⟨rfl, rfl⟩ <;>
      rcases value_cases y b hy with rfl | ⟨rfl, rfl⟩ <;> simp [Dbl.isNaN, Dbl.isInf]
  obtain ⟨f1, f2, f3, f4⟩ := hf
  simp only [Ref.mul, f1, f2, f3, f4, Bool.or_self, Bool.false_and, Bool.and_false,
    Bool.false_eq_true, if_false]
  rw [value_mkFin, ← h1, ← h2]
  cases Ref.sign x <;> cases Ref.sign y <;> simp

theorem ref_div_two_value (x : Dbl) (a : ℚ) (hx : x.value = some a) :
    (Ref.div x (Dbl.ofInt 2)).value = some (a / 2) := by
  have h1 := sign_mag x a hx
  have hf : x.isNaN = false ∧ x.isInf = false := by
    rcases value_cases x a hx with rfl | ⟨rfl, rfl⟩ <;> simp [Dbl.isNaN, Dbl.isInf]
  obtain ⟨f1, f2⟩ := hf
  have e2 : Dbl.ofInt 2 = .fin 2 := by simp [Dbl.ofInt]
  have h2 : (Dbl.fin 2).neZero = true := by simp [Dbl.neZero]
  have h3 : Ref.sign (Dbl.fin 2) = false := by simp [Ref.sign]
  have h4 : Ref.mag (Dbl.fin 2) = 2 := by simp [Ref.mag]
  have h5 : (Dbl.fin 2).isNaN = false := rfl
  have h6 : (Dbl.fin 2).isInf = false := rfl
  rw [e2]
  unfold Ref.div
  simp only [f1, f2, h2, h3, h4, h5, h6, Bool.or_self, Bool.false_and, Bool.and_false,
    Bool.false_eq_true, if_false, Bool.not_true, Bool.or_false]
  rw [value_mkFin, ← h1]
  cases Ref.sign x <;> simp [neg_div]

theorem b64_add_value (x y : Dbl) (a b : ℚ) (hx : x.value = some a) (hy : y.value = some b)
    (h : |a + b| ≤ B64.huge) :
    ∃ r, (B64.add x y).value = some r ∧ |r - (a + b)| ≤ |a + b| / 2 ^ 53 + B64.tiny :=
  b64_roundDbl_value _ _ (ref_add_value x y a b hx hy) h

theorem b64_sub_value (x y : Dbl) (a b : ℚ) (hx : x.value = some a) (hy : y.value = some b)
    (h : |a - b| ≤ B64.huge) :
    ∃ r, (B64.sub x y).value = some r ∧ |r - (a - b)| ≤ |a - b| / 2 ^ 53 + B64.tiny :=
  b64_roundDbl_value _ _ (ref_sub_value x y a b hx hy) h

theorem b64_mul_value (x y : Dbl) (a b : ℚ) (hx : x.value = some a) (hy : y.value = some b)
    (h : |a * b| ≤ B64.huge) :
    ∃ r, (B64.mul x y).value = some r ∧ |r - a * b| ≤ |a * b| / 2 ^ 53 + B64.tiny :=
  b64_roundDbl_value _ _ (ref_mul_value x y a b hx hy) h

theorem b64_div_two_value (x : Dbl) (a : ℚ) (hx : x.value = some a) (h : |a / 2| ≤ B64.huge) :
    ∃ r, (B64.div x (Dbl.ofInt 2)).value = some r ∧
      |r - a / 2| ≤ |a / 2| / 2 ^ 53 + B64.tiny :=
  b64_roundDbl_value _ _ (ref_div_two_value x a hx) h

/-! ### `zoom` in binary64 -/

theorem tiny_nonneg : 0 ≤ B64.tiny := by
  unfold B64.tiny
  exact div_nonneg zero_le_one (pow_nonneg (by norm_num) _)

theorem tiny_le_one : B64.tiny ≤ 1 := by
  unfold B64.tiny
  rw [div_le_one (pow_pos (by norm_num) _)]
  exact one_le_pow₀ (by norm_num)

theorem round_err_le {r t m e : ℚ} (h : |r - t| ≤ |t| / 2 ^ 53 + e) (hm : |t| ≤ m) :
    |r - t| ≤ m / 2 ^ 53 + e := by
  have : |t| / 2 ^ 53 ≤ m / 2 ^ 53 := div_le_div_of_nonneg_right hm (by norm_num)
  linarith

set_option maxHeartbeats 4000000 in
theorem b64_zoom_axis (lo hi f : Dbl) (α β φ A B F δ M : ℚ)
    (hlo : lo.value = some α) (hhi : hi.value = some β) (hf : f.value = some φ)
    (hF : (F = 4 / 5 ∧ φ = 3602879701896397 / 4503599627370496) ∨ (F = 5 / 4 ∧ φ = 5 / 4))
    (hA : |A| ≤ M) (hB : |B| ≤ M) (hα : |α - A| ≤ δ) (hβ : |β - B| ≤ δ)
    (hΩ : 4 * M + 8 * δ + 8 ≤ B64.huge) :
    ∃ α' β',
      (B64.sub (B64.div (B64.add hi lo) (Dbl.ofInt 2))
        (B64.div (B64.mul (B64.sub hi lo) f) (Dbl.ofInt 2))).value = some α' ∧
      (B64.add (B64.div (B64.add hi lo) (Dbl.ofInt 2))
        (B64.div (B64.mul (B64.sub hi lo) f) (Dbl.ofInt 2))).value = some β' ∧
      |α' - ((B + A) / 2 - (B - A) * F / 2)| ≤ 3 * δ + 8 * (M / 2 ^ 53 + B64.tiny) ∧
      |β' - ((B + A) / 2 + (B - A) * F / 2)| ≤ 3 * δ + 8 * (M / 2 ^ 53 + B64.tiny) := by
  have hη0 := tiny_nonneg
  have hη1 := tiny_le_one
  obtain ⟨hA1, hA2⟩ := abs_le.mp hA
  obtain ⟨hB1, hB2⟩ := abs_le.mp hB
  obtain ⟨hα1, hα2⟩ := abs_le.mp hα
  obtain ⟨hβ1, hβ2⟩ := abs_le.mp hβ
  have hM0 : 0 ≤ M := le_trans (abs_nonneg A) hA
  have hδ0 : 0 ≤ δ := le_trans (abs_nonneg _) hα
  have hu : M / 2 ^ 53 = M * (1 / 9007199254740992) := by norm_num [div_eq_mul_inv]
  -- the sum and the centre
  have ms : |β + α| ≤ 2 * M + 2 * δ := abs_le.mpr ⟨by linarith, by linarith⟩
  obtain ⟨s, hs, es⟩ := b64_add_value hi lo β α hhi hlo (by linarith)
  obtain ⟨es1, es2⟩ := abs_le.mp (round_err_le es ms)
  have mc : |s / 2| ≤ (1 + 1 / 1000) * M + 2 * δ + B64.tiny :=
    abs_le.mpr ⟨by linarith, by linarith⟩
  obtain ⟨c, hc, ec⟩ := b64_div_two_value _ s hs (by linarith)
  obtain ⟨ec1, ec2⟩ := abs_le.mp (round_err_le ec mc)
  -- the range, scaled and halved
  have md : |β - α| ≤ 2 * M + 2 * δ := abs_le.mpr ⟨by linarith, by linarith⟩
  obtain ⟨d, hd, ed⟩ := b64_sub_value hi lo β α hhi hlo (by linarith)
  obtain ⟨ed1, ed2⟩ := abs_le.mp (round_err_le ed md)
  have mw : |d * φ| ≤ (5 / 2 + 1 / 100) * M + 4 * δ + 2 * B64.tiny := by
    rcases hF with ⟨_, rfl⟩ | ⟨_, rfl⟩ <;> exact abs_le.mpr ⟨by linarith, by linarith⟩
  obtain ⟨mw1, mw2⟩ := abs_le.mp mw
  obtain ⟨w, hw, ew⟩ := b64_mul_value _ f d φ hd hf (by linarith)
  obtain ⟨ew1, ew2⟩ := abs_le.mp (round_err_le ew mw)
  have mh : |w / 2| ≤ (5 / 4 + 1 / 100) * M + 3 * δ + 2 * B64.tiny :=
    abs_le.mpr ⟨by linarith, by linarith⟩
  obtain ⟨h, hh, eh⟩ := b64_div_two_value _ w hw (by linarith)
  obtain ⟨eh1, eh2⟩ := abs_le.mp (round_err_le eh mh)
  -- the two bounds
  have mlo : |c - h| ≤ (5 / 4 + 1 / 100) * M + 4 * δ + 6 * B64.tiny := by
    rcases hF with ⟨_, rfl⟩ | ⟨_, rfl⟩ <;> exact abs_le.mpr ⟨by linarith, by linarith⟩
  have mhi : |c + h| ≤ (5 / 4 + 1 / 100) * M + 4 * δ + 6 * B64.tiny := by
    rcases hF with ⟨_, rfl⟩ | ⟨_, rfl⟩ <;> exact abs_le.mpr ⟨by linarith, by linarith⟩
  obtain ⟨α', hα', elo⟩ := b64_sub_value _ _ c h hc hh (by linarith)
  obtain ⟨elo1, elo2⟩ := abs_le.mp (round_err_le elo mlo)
  obtain ⟨β', hβ', ehi⟩ := b64_add_value _ _ c h hc hh (by linarith)
  obtain ⟨ehi1, ehi2⟩ := abs_le.mp (round_err_le ehi mhi)
  refine ⟨α', β', hα', hβ', ?_, ?_⟩
  · rcases hF with ⟨rfl, rfl⟩ | ⟨rfl, rfl⟩ <;> exact abs_le.mpr ⟨by linarith, by linarith⟩
  · rcases hF with ⟨rfl, rfl⟩ | ⟨rfl, rfl⟩ <;> exact abs_le.mpr ⟨by linarith, by linarith⟩

theorem huge_ge (M : ℚ) (hM : M ≤ 2 ^ 1000) : 16 * M + 72 ≤ B64.huge := by
  have h1 : B64.huge = 2 ^ 1000 * 2 ^ 23 := by
    unfold B64.huge
    rw [show (1023 : ℕ) = 1000 + 23 from rfl, pow_add]
  have h2 : (1 : ℚ) ≤ 2 ^ 1000 := one_le_pow₀ (by norm_num)
  rw [h1]
  generalize (2 : ℚ) ^ 1000 = t at hM h2
  norm_num
  linarith

theorem tiny_mul_32 : 32 * B64.tiny = 1 / 2 ^ 1070 := by
  unfold B64.tiny
  rw [show (1075 : ℕ) = 1070 + 5 from rfl, pow_add]
  have h : (2 : ℚ) ^ 1070 ≠ 0 := pow_ne_zero _ (by norm_num)
  generalize (2 : ℚ) ^ 1070 = t at h
  field_simp
  ring

theorem b64_round_four_fifths :
    (B64.round (4 / 5)).value = some (3602879701896397 / 4503599627370496) := by
  decide!

theorem b64_round_five_fourths : (B64.round (5 / 4)).value = some (5 / 4) := by
  decide!

set_option maxHeartbeats 1000000 in
theorem b64_round_trip_axis (lo hi : Dbl) (a b M : ℚ)
    (hlo : lo.value = some a) (hhi : hi.value = some b)
    (ha : |a| ≤ M) (hb : |b| ≤ M) (hM : M ≤ 2 ^ 1000) :
    ∃ lo1 hi1 : Dbl,
      lo1 = B64.sub (B64.div (B64.add hi lo) (Dbl.ofInt 2))
        (B64.div (B64.mul (B64.sub hi lo) (B64.round (4 / 5))) (Dbl.ofInt 2)) ∧
      hi1 = B64.add (B64.div (B64.add hi lo) (Dbl.ofInt 2))
        (B64.div (B64.mul (B64.sub hi lo) (B64.round (4 / 5))) (Dbl.ofInt 2)) ∧
      ∃ a' b' : ℚ,
        (B64.sub (B64.div (B64.add hi1 lo1) (Dbl.ofInt 2))
          (B64.div (B64.mul (B64.sub hi1 lo1) (B64.round (5 / 4))) (Dbl.ofInt 2))).value =
            some a' ∧
        (B64.add (B64.div (B64.add hi1 lo1) (Dbl.ofInt 2))
          (B64.div (B64.mul (B64.sub hi1 lo1) (B64.round (5 / 4))) (Dbl.ofInt 2))).value =
            some b' ∧
        |a' - a| ≤ M / 2 ^ 48 + 1 / 2 ^ 1070 ∧ |b' - b| ≤ M / 2 ^ 48 + 1 / 2 ^ 1070 := by
  have hη0 := tiny_nonneg
  have hη1 := tiny_le_one
  have hΩ := huge_ge M hM
  have hM0 : 0 ≤ M := le_trans (abs_nonneg a) ha
  obtain ⟨ha1, ha2⟩ := abs_le.mp ha
  obtain ⟨hb1, hb2⟩ := abs_le.mp hb
  have hu : M / 2 ^ 53 ≤ M := by
    rw [div_le_iff₀ (by norm_num)]
    nlinarith
  obtain ⟨a1, b1, h1, h2, h3, h4⟩ :=
    b64_zoom_axis lo hi (B64.round (4 / 5)) a b (3602879701896397 / 4503599627370496) a b (4 / 5)
      0 M hlo hhi b64_round_four_fifths (Or.inl ⟨rfl, rfl⟩) ha hb (by simp) (by simp)
      (by linarith)
  refine ⟨_, _, rfl, rfl, ?_⟩
  obtain ⟨a2, b2, h5, h6, h7, h8⟩ :=
    b64_zoom_axis _ _ (B64.round (5 / 4)) a1 b1 (5 / 4)
      ((b + a) / 2 - (b - a) * (4 / 5) / 2) ((b + a) / 2 + (b - a) * (4 / 5) / 2) (5 / 4)
      (8 * (M / 2 ^ 53 + B64.tiny)) M h1 h2 b64_round_five_fourths (Or.inr ⟨rfl, rfl⟩)
      (abs_le.mpr ⟨by linarith, by linarith⟩) (abs_le.mpr ⟨by linarith, by linarith⟩)
      (by linarith) (by linarith) (by linarith)
  refine ⟨a2, b2, h5, h6, ?_, ?_⟩
  · have e : ((b + a) / 2 + (b - a) * (4 / 5) / 2 + ((b + a) / 2 - (b - a) * (4 / 5) / 2)) / 2 -
        ((b + a) / 2 + (b - a) * (4 / 5) / 2 - ((b + a) / 2 - (b - a) * (4 / 5) / 2)) *
          (5 / 4) / 2 = a := by ring
    rw [e] at h7
    refine le_trans h7 (le_of_eq ?_)
    rw [← tiny_mul_32]
    ring
  · have e : ((b + a) / 2 + (b - a) * (4 / 5) / 2 + ((b + a) / 2 - (b - a) * (4 / 5) / 2)) / 2 +
        ((b + a) / 2 + (b - a) * (4 / 5) / 2 - ((b + a) / 2 - (b - a) * (4 / 5) / 2)) *
          (5 / 4) / 2 = b := by ring
    rw [e] at h8
    refine le_trans h8 (le_of_eq ?_)
    rw [← tiny_mul_32]
    ring

theorem b64_viewport_round_trip (v : Viewport Dbl) (a b c d : ℚ)
    (ha : v.x_min.value = some a) (hb : v.x_max.value = some b)
    (hc : v.y_min.value = some c) (hd : v.y_max.value = some d)
    (ha1 : |a| ≤ 2 ^ 1000) (hb1 : |b| ≤ 2 ^ 1000) (hc1 : |c| ≤ 2 ^ 1000)
    (hd1 : |d| ≤ 2 ^ 1000) :
    ∃ a' b' c' d' : ℚ,
      (zoom_out binary64 (zoom_in binary64 v)).x_min.value = some a' ∧
      (zoom_out binary64 (zoom_in binary64 v)).x_max.value = some b' ∧
      (zoom_out binary64 (zoom_in binary64 v)).y_min.value = some c' ∧
      (zoom_out binary64 (zoom_in binary64 v)).y_max.value = some d' ∧
      |a' - a| ≤ max |a| |b| / 2 ^ 48 + 1 / 2 ^ 1070 ∧
      |b' - b| ≤ max |a| |b| / 2 ^ 48 + 1 / 2 ^ 1070 ∧
      |c' - c| ≤ max |c| |d| / 2 ^ 48 + 1 / 2 ^ 1070 ∧
      |d' - d| ≤ max |c| |d| / 2 ^ 48 + 1 / 2 ^ 1070 := by
  obtain ⟨_, _, rfl, rfl, a', b', h1, h2, h3, h4⟩ :=
    b64_round_trip_axis v.x_min v.x_max a b (max |a| |b|) ha hb (le_max_left _ _)
      (le_max_right _ _) (max_le ha1 hb1)
  obtain ⟨_, _, rfl, rfl, c', d', h5, h6, h7, h8⟩ :=
    b64_round_trip_axis v.y_min v.y_max c d (max |c| |d|) hc hd (le_max_left _ _)
      (le_max_right _ _) (max_le hc1 hd1)
  exact ⟨a', b', c', d', h1, h2, h5, h6, h3, h4, h7, h8⟩

/-! ## The claims -/

/-- Claim C1, at the failing inputs `entropy(0)` and `entropy(1)`: the registry
function `shannon_entropy` is 0 at 0 and at 1, but the calls do not reach it.
The leading `e` is replaced by the text of the constant before the function
pass runs, the tokenizer stops at `ntropy`, and the call returns NaN for every
platform and every `x`.  On the reference platform, where `exp 0 = 1` and
`asin 0 = 0`, the calls `exp(0)` and `asin(0)` return NaN as well. -/
theorem entropy_call_returns_nan (P : Platform) (x : Dbl) :
    shannon_entropy P (.fin 0) = .fin 0 ∧ shannon_entropy P (.fin 1) = .fin 0 ∧
    evaluate_expression P "entropy(0)".toList x = .ret .nan ∧
    evaluate_expression P "entropy(1)".toList x = .ret .nan ∧
    (refPlatform.exp (.fin 0) = .fin 1 ∧
      evaluate_expression refPlatform "exp(0)".toList (.fin 3) = .ret .nan) ∧
    (refPlatform.asin (.fin 0) = .fin 0 ∧
      evaluate_expression refPlatform "asin(0)".toList (.fin 3) = .ret .nan) :=
  ⟨by with_unfolding_all rfl, by with_unfolding_all rfl, rfl, rfl, by decide!, by decide!⟩

/-- Claim C2, at the failing inputs `sin(cos(0))` and `sqrt(sqrt(16))`: on
every platform and for every `x` the call returns NaN.  The outer call is cut
at the first `)`, the second `)` stays in the buffer after the text of the
result, and the tokenizer returns NaN at it.  On the reference platform
`sin (sin 0)` is 0 and `sin(sin(0))` returns NaN, while `cos(sin(0))`, whose
inner name comes first in the registry, returns `cos (sin 0) = 1`. -/
theorem nested_call_returns_nan (P : Platform) (x : Dbl) :
    evaluate_expression P "sin(cos(0))".toList x = .ret .nan ∧
    evaluate_expression P "sqrt(sqrt(16))".toList x = .ret .nan ∧
    (refPlatform.sin (refPlatform.sin (.fin 0)) = .fin 0 ∧
      evaluate_expression refPlatform "sin(sin(0))".toList (.fin 0) = .ret .nan) ∧
    evaluate_expression refPlatform "cos(sin(0))".toList (.fin 0) = .ret (.fin 1) :=
  ⟨eval_sin_cos P x, eval_sqrt_sqrt P x, by decide!, by decide!⟩

/-- Claim C3: for a first value and any list of operator-value pairs (so
`n + 1` values and `n` operators), the shift-and-delete loops of
`evaluate_expression` return the value of the reference evaluation, which
combines every `^`, then every `*` and `/`, then every `+` and `-`, each pass
left to right with `apply_operator`; the tokens of `2+3*4` reduce to 14. -/
theorem reduce_eq_refEval (P : Platform) (v0 : Dbl) (rest : List (Char × Dbl)) :
    reduce P (v0 :: rest.map Prod.snd) (rest.map Prod.fst) = .ret (refEval P v0 rest) ∧
    tokenize refPlatform 0 none false [] [] "2+3*4".toList =
      some ([.fin 2, .fin 3, .fin 4], ['+', '*']) ∧
    refEval refPlatform (.fin 2) [('+', .fin 3), ('*', .fin 4)] = .fin 14 ∧
    reduce refPlatform [.fin 2, .fin 3, .fin 4] ['+', '*'] = .ret (.fin 14) :=
  ⟨reduce_spec P v0 rest, by decide!, by decide!, by decide!⟩

/-- Claim C5: whatever the left operand, division by a zero of either sign
gives NaN, which is not an infinity, and `1/0` evaluates to NaN for every
`x`. -/
theorem division_by_zero_is_nan (P : Platform) (left x : Dbl) :
    apply_operator P left (.fin 0) '/' = .nan ∧
    apply_operator P left .negZero '/' = .nan ∧
    (apply_operator P left (.fin 0) '/').isInf = false ∧
    (apply_operator P left .negZero '/').isInf = false ∧
    evaluate_expression P "1/0".toList x = .ret .nan :=
  ⟨by with_unfolding_all rfl, rfl, by with_unfolding_all rfl, rfl, rfl⟩

/-- Claim C6 as the code has it: for an expression without the character
`x` and any two values of `x`, if one call returns a double, no array being
overrun and no unwritten slot or null pointer being read, then the other call
returns the same double (one NaN standing for all), the recursive evaluation
of function arguments included; the bound of the model's recursion is not
reached. -/
theorem evaluate_bounded_independent_of_x (P : Platform) (expr : List Char) (x1 x2 : Dbl)
    (h : 'x' ∉ expr) :
    (∀ d, evaluate_expression_bounded P expr x1 = .ret d ↔
      evaluate_expression_bounded P expr x2 = .ret d) ∧
    evaluate_expression_bounded P expr x1 ≠ .outOfFuel := by
  refine ⟨fun d => ?_, evaluate_expression_bounded_ne_outOfFuel P expr x1⟩
  have e : evaluate_expression_bounded P expr x1 = evaluate_expression_bounded P expr x2 :=
    evalFuelBounded_x_free P x1 x2 _ expr h
  rw [e]

/-- Claim C6 as the code has it, at `cos(sin(0))+2*pi`, which returns
`1 + 2 * 3.141592653589793` for `x = 0` and for `x = 7`. -/
theorem evaluate_bounded_independent_of_x_witness :
    'x' ∉ "cos(sin(0))+2*pi".toList ∧
    evaluate_expression_bounded refPlatform "cos(sin(0))+2*pi".toList (.fin 0) =
      .ret (.fin (7283185307179586 / 1000000000000000)) ∧
    evaluate_expression_bounded refPlatform "cos(sin(0))+2*pi".toList (.fin 7) =
      .ret (.fin (7283185307179586 / 1000000000000000)) :=
  ⟨by decide, by decide!,
    ((evaluate_bounded_independent_of_x refPlatform "cos(sin(0))+2*pi".toList (.fin 0) (.fin 7)
      (by decide)).1 _).mp (by decide!)⟩

/-- Claim C6 as stated fails: there are expressions without `x` for which
no call returns a number defined by the program, whatever `x` is.  For the
empty expression, for `2+` and for `sin(2+)` the value returned is read from a
slot of `values` that was never written; for `sin` a null pointer is passed to
`strchr`; for `pi` written 40 times the substitution of `pi` overruns
`temp_expr`. -/
theorem evaluate_x_free_undefined :
    'x' ∉ "".toList ∧ 'x' ∉ "2+".toList ∧ 'x' ∉ "sin(2+)".toList ∧ 'x' ∉ "sin".toList ∧
    'x' ∉ (List.replicate 40 ['p', 'i']).flatten ∧
    (∀ (P : Platform) (x : Dbl), evaluate_expression_bounded P "".toList x = .uninitRead) ∧
    (∀ (P : Platform) (x : Dbl), evaluate_expression_bounded P "2+".toList x = .uninitRead) ∧
    (∀ (P : Platform) (x : Dbl),
      evaluate_expression_bounded P "sin(2+)".toList x = .uninitRead) ∧
    (∀ (P : Platform) (x : Dbl), evaluate_expression_bounded P "sin".toList x = .nullDeref) ∧
    (∀ (P : Platform) (x : Dbl),
      evaluate_expression_bounded P (List.replicate 40 ['p', 'i']).flatten x = .bufferOverrun) :=
  ⟨by decide, by decide, by decide, by decide, by decide,
    fun _ _ => rfl, fun _ _ => rfl, bounded_sin_trailing_operator, fun _ _ => rfl,
    bounded_pi_40⟩

/-- Claim C7 as the code has it: a column whose value is NaN or infinite
emits no vertex and every other column emits one; the first vertex emitted is
a move-to and every later one is a line-to, the first one after a gap
included; and for a height that is not negative every emitted vertex has its
row within `[0, height]`. -/
theorem draw_graph_vertices (P : Platform) (graph_expr : List Char) (v : Viewport Dbl)
    (width height : Int) (cmds : List PathCmd)
    (h : draw_graph P graph_expr v width height = .ok cmds) :
    cmds.map PathCmd.col =
      ((List.range width.toNat).filter (plotted P graph_expr v width)).map Int.ofNat ∧
    (cmds = [] ∨ ∃ c r rest, cmds = PathCmd.move_to c r :: rest ∧
      ∀ d ∈ rest, d.isMove = false) ∧
    (0 ≤ height → ∀ d ∈ cmds, 0 ≤ d.row ∧ d.row ≤ height) := by
  obtain ⟨h1, h2, _, h4⟩ := drawLoop_spec P graph_expr v width height _ true cmds h
  exact ⟨h1, h2 rfl, h4⟩

/-- Claim C7 as the code has it, at `1/x` on the viewport from -8 to 8 on
both axes, with 4 columns and height 256. -/
theorem draw_graph_vertices_witness :
    draw_graph refPlatform "1/x".toList ⟨.fin (-8), .fin 8, .fin (-8), .fin 8⟩ 4 256
      = .ok [.move_to 0 130, .line_to 1 132, .line_to 3 124] ∧
    ([PathCmd.move_to 0 130, .line_to 1 132, .line_to 3 124].map PathCmd.col =
      ((List.range (4 : Int).toNat).filter (plotted refPlatform "1/x".toList
        ⟨.fin (-8), .fin 8, .fin (-8), .fin 8⟩ 4)).map Int.ofNat ∧
    ([PathCmd.move_to 0 130, .line_to 1 132, .line_to 3 124] = [] ∨
      ∃ c r rest, [PathCmd.move_to 0 130, .line_to 1 132, .line_to 3 124]
        = PathCmd.move_to c r :: rest ∧ ∀ d ∈ rest, d.isMove = false) ∧
    ((0 : Int) ≤ 256 → ∀ d ∈ [PathCmd.move_to 0 130, .line_to 1 132, .line_to 3 124],
      0 ≤ d.row ∧ d.row ≤ 256)) :=
  ⟨by decide!, draw_graph_vertices refPlatform _ _ 4 256 _ (by decide!)⟩

/-- Claim C7 as stated fails: for `1/x` on the viewport from -8 to 8 on both
axes (the default one after one `zoom_in`), with 4 columns and height 256, the
columns are `x = -8, -4, 0, 4`; column 2 has the value NaN and emits nothing,
and the vertex of column 3, the first one after that gap, is a line-to joined
to the vertex of column 1, not a move-to. -/
theorem draw_graph_gap_not_broken :
    evaluate_expression refPlatform "1/x".toList
      (columnX refPlatform ⟨.fin (-8), .fin 8, .fin (-8), .fin 8⟩ 4 2) = .ret .nan ∧
    draw_graph refPlatform "1/x".toList ⟨.fin (-8), .fin 8, .fin (-8), .fin 8⟩ 4 256
      = .ok [.move_to 0 130, .line_to 1 132, .line_to 3 124] := by
  decide!

/-- Claim C8 as the code has it.  First, on a platform whose arithmetic is
exact, `zoom_in` followed by `zoom_out` gives back the four bounds of every
finite viewport (whether or not `x_min < x_max` and `y_min < y_max`), since
`zoom(f)` with `f > 0` keeps the centre of each axis and multiplies its range
by `f`, and `4 / 5 * (5 / 4) = 1`.  Second, in binary64, for every viewport
with finite bounds of magnitude at most `2 ^ 1000`, `zoom_in` followed by
`zoom_out` gives finite bounds again, each within `m / 2 ^ 48 + 2 ^ -1070` of
the original one, `m` being the larger magnitude of the two bounds of its
axis. -/
theorem zoom_round_trip :
    (∀ P : Platform, ExactArith P → ∀ a b c d : ℚ,
      zoom_out P (zoom_in P ⟨.fin a, .fin b, .fin c, .fin d⟩) =
        ⟨.fin a, .fin b, .fin c, .fin d⟩ ∧
      ∀ f : ℚ, 0 < f → ∃ x0 x1 y0 y1 : ℚ,
        zoom P (.fin f) ⟨.fin a, .fin b, .fin c, .fin d⟩ =
          ⟨.fin x0, .fin x1, .fin y0, .fin y1⟩ ∧
        (x1 + x0) / 2 = (b + a) / 2 ∧ (y1 + y0) / 2 = (d + c) / 2 ∧
        x1 - x0 = (b - a) * f ∧ y1 - y0 = (d - c) * f) ∧
    (∀ (v : Viewport Dbl) (a b c d : ℚ),
      v.x_min.value = some a → v.x_max.value = some b →
      v.y_min.value = some c → v.y_max.value = some d →
      |a| ≤ 2 ^ 1000 → |b| ≤ 2 ^ 1000 → |c| ≤ 2 ^ 1000 → |d| ≤ 2 ^ 1000 →
      ∃ a' b' c' d' : ℚ,
        (zoom_out binary64 (zoom_in binary64 v)).x_min.value = some a' ∧
        (zoom_out binary64 (zoom_in binary64 v)).x_max.value = some b' ∧
        (zoom_out binary64 (zoom_in binary64 v)).y_min.value = some c' ∧
        (zoom_out binary64 (zoom_in binary64 v)).y_max.value = some d' ∧
        |a' - a| ≤ max |a| |b| / 2 ^ 48 + 1 / 2 ^ 1070 ∧
        |b' - b| ≤ max |a| |b| / 2 ^ 48 + 1 / 2 ^ 1070 ∧
        |c' - c| ≤ max |c| |d| / 2 ^ 48 + 1 / 2 ^ 1070 ∧
        |d' - d| ≤ max |c| |d| / 2 ^ 48 + 1 / 2 ^ 1070) := by
  refine ⟨fun P hP a b c d => ⟨?_, fun f hf => ?_⟩, b64_viewport_round_trip⟩
  · rw [zoom_in, zoom_out, hP.round_fin, hP.round_fin, zoom_exact P hP _ _ _ _ _ (by norm_num),
      zoom_exact P hP _ _ _ _ _ (by norm_num)]
    congr 2 <;> ring
  · refine ⟨_, _, _, _, zoom_exact P hP f a b c d hf, ?_, ?_, ?_, ?_⟩ <;> ring

/-- Claim C8 as the code has it, at the default viewport on the reference
platform, which is exact, and at the viewport from 0 to 3 on both axes in
binary64. -/
theorem zoom_round_trip_witness :
    ExactArith refPlatform ∧
    zoom_out refPlatform (zoom_in refPlatform ⟨.fin (-10), .fin 10, .fin (-10), .fin 10⟩) =
      ⟨.fin (-10), .fin 10, .fin (-10), .fin 10⟩ ∧
    ∃ a' b' c' d' : ℚ,
      (zoom_out binary64 (zoom_in binary64 ⟨.fin 0, .fin 3, .fin 0, .fin 3⟩)).x_min.value =
        some a' ∧
      (zoom_out binary64 (zoom_in binary64 ⟨.fin 0, .fin 3, .fin 0, .fin 3⟩)).x_max.value =
        some b' ∧
      (zoom_out binary64 (zoom_in binary64 ⟨.fin 0, .fin 3, .fin 0, .fin 3⟩)).y_min.value =
        some c' ∧
      (zoom_out binary64 (zoom_in binary64 ⟨.fin 0, .fin 3, .fin 0, .fin 3⟩)).y_max.value =
        some d' ∧
      |a' - 0| ≤ max |(0 : ℚ)| |3| / 2 ^ 48 + 1 / 2 ^ 1070 ∧
      |b' - 3| ≤ max |(0 : ℚ)| |3| / 2 ^ 48 + 1 / 2 ^ 1070 ∧
      |c' - 0| ≤ max |(0 : ℚ)| |3| / 2 ^ 48 + 1 / 2 ^ 1070 ∧
      |d' - 3| ≤ max |(0 : ℚ)| |3| / 2 ^ 48 + 1 / 2 ^ 1070 :=
  have h0 : |(0 : ℚ)| ≤ 2 ^ 1000 := by
    rw [abs_zero]
    exact pow_nonneg (by norm_num) _
  have h3 : |(3 : ℚ)| ≤ 2 ^ 1000 := by
    rw [abs_of_pos (by norm_num)]
    calc (3 : ℚ) ≤ 2 ^ 2 := by norm_num
      _ ≤ 2 ^ 1000 := pow_le_pow_right₀ (by norm_num) (by norm_num)
  ⟨exactArith_refPlatform,
    (zoom_round_trip.1 refPlatform exactArith_refPlatform (-10) 10 (-10) 10).1,
    zoom_round_trip.2 ⟨.fin 0, .fin 3, .fin 0, .fin 3⟩ 0 3 0 3 rfl rfl rfl rfl h0 h3 h0 h3⟩

/-- Claim C8 as stated fails in the arithmetic of the program: in binary64,
on the viewport from 0 to 3 on both axes, `zoom_in` followed by `zoom_out`
gives the lower bounds `-2 ^ -52` instead of 0; on the viewport reached from
the default one by two `zoom_in`, it gives four bounds that are off by one
unit in the last place.  The default viewport itself does come back. -/
theorem zoom_in_then_out_binary64 :
    zoom_out binary64 (zoom_in binary64 ⟨.fin 0, .fin 3, .fin 0, .fin 3⟩) =
      ⟨.fin (-(1 / 2 ^ 52)), .fin 3, .fin (-(1 / 2 ^ 52)), .fin 3⟩ ∧
    zoom_out binary64 (zoom_in binary64 ⟨.fin 0, .fin 3, .fin 0, .fin 3⟩) ≠
      ⟨.fin 0, .fin 3, .fin 0, .fin 3⟩ ∧
    zoom_in binary64 (zoom_in binary64 (reset_zoom ⟨.fin 0, .fin 3, .fin 0, .fin 3⟩)) =
      ⟨.fin (-(3602879701896397 / 2 ^ 49)), .fin (3602879701896397 / 2 ^ 49),
        .fin (-(3602879701896397 / 2 ^ 49)), .fin (3602879701896397 / 2 ^ 49)⟩ ∧
    zoom_out binary64 (zoom_in binary64
        ⟨.fin (-(3602879701896397 / 2 ^ 49)), .fin (3602879701896397 / 2 ^ 49),
          .fin (-(3602879701896397 / 2 ^ 49)), .fin (3602879701896397 / 2 ^ 49)⟩) =
      ⟨.fin (-(7205759403792795 / 2 ^ 50)), .fin (7205759403792795 / 2 ^ 50),
        .fin (-(7205759403792795 / 2 ^ 50)), .fin (7205759403792795 / 2 ^ 50)⟩ ∧
    zoom_out binary64 (zoom_in binary64 (reset_zoom ⟨.fin 0, .fin 3, .fin 0, .fin 3⟩)) =
      reset_zoom ⟨.fin 0, .fin 3, .fin 0, .fin 3⟩ := by
  decide!

/-- Claim C9, at the failing inputs: when the tokenizer finishes it has one
more value than operators or as many values as operators, and the second
case is not turned into NaN.  For the empty expression and for `2+` the counts
are 0 and 0, 1 and 1; no check follows, and the function returns what it
reads from a slot of `values` that was never written. -/
theorem trailing_operator_reads_unwritten (P : Platform) (x : Dbl) :
    (∀ (buf : List Char) (vals : List Dbl) (ops : List Char),
      tokenize P 0 none false [] [] buf = some (vals, ops) →
      vals.length = ops.length + 1 ∨ vals.length = ops.length) ∧
    tokenize P 0 none false [] [] [] = some ([], []) ∧
    tokenize P 0 none false [] [] "2+".toList = some ([P.round 2], ['+']) ∧
    evaluate_expression P [] x = .uninitRead ∧
    evaluate_expression P "2+".toList x = .uninitRead :=
  ⟨fun buf vals ops h => tokenize_counts P buf 0 none false [] [] ops vals rfl h,
    rfl, by with_unfolding_all rfl, rfl, rfl⟩

/-- Claim C10, at the failing input `2x` with `x = 3`: the text of `x` is put
next to the `2`, the buffer is `23.000000`, and the call returns the double
of 23 (on the reference platform 23, where 2 times 3 is 6); no implicit `*`
is inserted. -/
theorem adjacent_variable_is_concatenated (P : Platform) :
    evaluate_expression P "2x".toList (.fin 3) = .ret (P.round 23) ∧
    evaluate_expression refPlatform "2x".toList (.fin 3) = .ret (.fin 23) ∧
    refPlatform.mul (refPlatform.round 2) (.fin 3) = .fin 6 :=
  ⟨by with_unfolding_all rfl, by decide!, by decide!⟩

end GraphingCalc
